import Mathlib

/-!
Verification of a minimal Byte Pair Encoding (BPE) tokenizer.

The development shallowly embeds `bpe_tokenizer/tokenizer.py`:
* text is a `List Char`; a symbol (an evolving vocabulary unit) is a
  `List Char` (a Python string); a word is a `List Symbol`;
* Python `Counter` / `dict` values are modelled as insertion-ordered
  association lists, matching the insertion-order iteration semantics of
  Python dictionaries (needed for the tie-break in `max(stats, key=...)`);
* the training loop runs on explicit fuel; a separate theorem shows the
  chosen fuel always suffices, so the model agrees with the unbounded
  Python `while` loop;
* `train` returns the (possibly unchanged) tokenizer state together with
  an optional error, mirroring where the Python code raises before or
  after mutating `self`; `encode`/`decode` return `Except`.
-/

namespace BPE

/-- One vocabulary unit: a Python string, i.e. a list of characters. -/
abbrev Symbol := List Char

/-- An ordered pair of adjacent symbols, candidate for merging. -/
abbrev Pair := Symbol × Symbol

/-- A word: the symbol sequence of one whitespace-delimited token. -/
abbrev Word := List Symbol

/-- Insertion-ordered counter mapping words to occurrence counts. -/
abbrev WordFreqs := List (Word × Nat)

/-- The word-start marker `▁` prefixed to every word (source line 42). -/
def wordStart : Char := '▁'

/-- The end-of-word marker string `</w>` (source line 46). -/
def endOfWord : Symbol := ['<', '/', 'w', '>']

/-- Whitespace characters recognised by Python `str.split()` /
`str.strip()` (ASCII whitespace; exotic Unicode spaces are out of scope
for this model). -/
def isSpace (c : Char) : Bool :=
  c = ' ' || c = '\t' || c = '\n' || c = '\r' || c = '\x0b' || c = '\x0c'

/-- Helper for `splitWs`: accumulates the current (reversed) token. -/
def splitWsAux : List Char → List Char → List (List Char)
  | [], acc => if acc = [] then [] else [acc.reverse]
  | c :: rest, acc =>
    if isSpace c then
      if acc = [] then splitWsAux rest []
      else acc.reverse :: splitWsAux rest []
    else splitWsAux rest (c :: acc)

/-- Python `str.split()`: split on whitespace runs, dropping empty
tokens. -/
def splitWs (l : List Char) : List (List Char) :=
  splitWsAux l []

/-- Python `str.strip()`: remove leading and trailing whitespace. -/
def stripChars (l : List Char) : List Char :=
  ((l.dropWhile isSpace).reverse.dropWhile isSpace).reverse

/-- The word list of one line: `[w for w in line.strip().split() if w]`
(the `if w` filter is vacuous since `split()` never yields empty
tokens). Used by both `train` (line 42) and `encode` (line 80). -/
def splitToWords (l : List Char) : List (List Char) :=
  splitWs (stripChars l)

/-- Look up a key in an insertion-ordered association list (keys are
unique by construction, as in a Python dict). -/
def dictGet {α : Type} [DecidableEq α] (d : List (α × Nat)) (k : α) : Option Nat :=
  match d with
  | [] => none
  | (k', v) :: rest => if k' = k then some v else dictGet rest k

/-- `d[k] += n` on a counter: update in place, or append a new entry
(Python dicts keep the position of updated keys). -/
def insertAdd {α : Type} [DecidableEq α] (d : List (α × Nat)) (k : α) (n : Nat) :
    List (α × Nat) :=
  match d with
  | [] => [(k, n)]
  | (k', v) :: rest => if k' = k then (k', v + n) :: rest else (k', v) :: insertAdd rest k n

/-- Add a symbol to the symbol set if not already present
(`set.add`). -/
def insertNew (l : List Symbol) (s : Symbol) : List Symbol :=
  if s ∈ l then l else l ++ [s]

/-- `tuple(list("▁" + w) + ["</w>"])` (source line 46): the marked
symbol sequence of a word, one single-character symbol per character. -/
def wordSymbols (w : List Char) : Word :=
  (wordStart :: w).map (fun c => [c]) ++ [endOfWord]

/-- Build the word-frequency counter of the corpus (source lines 40-47). -/
def buildWordFreqs (corpus : List (List Char)) : WordFreqs :=
  corpus.foldl
    (fun wf line =>
      (splitToWords line).foldl (fun wf w => insertAdd wf (wordSymbols w) 1) wf)
    []

/-- The adjacent pairs of a word, in scan order. -/
def wordAdjPairs (w : Word) : List Pair :=
  w.zip w.tail

/-- `_get_stats` (source lines 105-114): aggregate frequency of every
adjacent pair whose elements are both different from the end-of-word
marker. -/
def getStats (wf : WordFreqs) : List (Pair × Nat) :=
  wf.foldl
    (fun stats e =>
      (wordAdjPairs e.1).foldl
        (fun stats p =>
          if p.1 = endOfWord ∨ p.2 = endOfWord then stats else insertAdd stats p e.2)
        stats)
    []

/-- `max(stats, key=stats.get)`: the first entry attaining the maximal
count, in insertion order (later entries replace the best only when
strictly greater, exactly as Python `max`). -/
def bestOf {α : Type} (d : List (α × Nat)) : Option (α × Nat) :=
  d.foldl
    (fun acc kv =>
      match acc with
      | none => some kv
      | some best => if kv.2 > best.2 then some kv else acc)
    none

/-- The in-place merge loop of `_merge_vocab` (source lines 120-128):
one left-to-right, non-overlapping pass replacing each adjacent
occurrence of `p` by the concatenation of its components. -/
def mergeWord (p : Pair) : Word → Word
  | a :: b :: rest =>
    if a = p.1 ∧ b = p.2 then (p.1 ++ p.2) :: mergeWord p rest
    else a :: mergeWord p (b :: rest)
  | l => l

/-- `_merge_vocab` (source lines 116-130): rebuild the counter with the
pair merged in every word. -/
def mergeVocab (p : Pair) (wf : WordFreqs) : WordFreqs :=
  wf.foldl (fun acc e => insertAdd acc (mergeWord p e.1) e.2) []

/-- `_apply_merge` (source lines 132-143): the encode-time merge pass,
textually a second copy of the same scan as `_merge_vocab`. -/
def applyMerge (symbols : List Symbol) (p : Pair) : List Symbol :=
  match symbols with
  | a :: b :: rest =>
    if a = p.1 ∧ b = p.2 then (p.1 ++ p.2) :: applyMerge rest p
    else a :: applyMerge (b :: rest) p
  | l => l

/-- Total number of symbols across all counter entries; the training
loop strictly decreases it at every merge, which bounds its iteration
count. -/
def totalLen (wf : WordFreqs) : Nat :=
  (wf.map (fun e => e.1.length)).sum

/-- Initial symbol set: the unknown token plus every distinct
single-character symbol of any word, excluding the end-of-word marker
(source lines 54-56). -/
def initSymbols (unk : Symbol) (wf : WordFreqs) : List Symbol :=
  wf.foldl
    (fun syms e =>
      e.1.foldl (fun syms s => if s = endOfWord then syms else insertNew syms s) syms)
    [unk]

/-- State threaded through the training merge loop. -/
structure TrainState where
  symbols : List Symbol
  merges : List Pair
  wordFreqs : WordFreqs
  deriving Repr, DecidableEq

/-- The training merge loop (source lines 58-66), on explicit fuel.
The boolean is `true` when the loop stopped because the symbol set
reached `vocabSize` or the pair statistics were exhausted, `false` when
the fuel ran out first (shown impossible for the fuel used by
`train`). -/
def trainLoop (vocabSize : Nat) : Nat → TrainState → TrainState × Bool
  | 0, st => (st, false)
  | fuel + 1, st =>
    if st.symbols.length < vocabSize then
      match bestOf (getStats st.wordFreqs) with
      | none => (st, true)
      | some best =>
        trainLoop vocabSize fuel
          { symbols := insertNew st.symbols (best.1.1 ++ best.1.2)
            merges := st.merges ++ [best.1]
            wordFreqs := mergeVocab best.1 st.wordFreqs }
    else (st, true)

/-- Errors raised by `train` (both are `ValueError` in Python; the spec
names them InvalidArgument and EmptyInput). -/
inductive TrainError where
  | invalidArgument
  | emptyInput
  deriving Repr, DecidableEq

/-- Errors raised by `encode`/`decode`: the `RuntimeError` for an
untrained tokenizer, and the `KeyError` Python would raise in `encode`
if the unknown token were missing from a non-empty vocabulary. -/
inductive CodecError where
  | notTrained
  | unkMissing
  deriving Repr, DecidableEq

/-- The tokenizer state: dataclass fields `unk_token`, `merges`,
`vocab` with their defaults (source lines 22-24). -/
structure BPETokenizer where
  unkToken : Symbol := ['<', 'u', 'n', 'k', '>']
  merges : List Pair := []
  vocab : List (Symbol × Nat) := []
  deriving Repr, DecidableEq

/-- Python `sorted` on a list of strings: lexicographic by code point,
which is exactly Mathlib's linear order on `List Char`. -/
def sortSymbols (l : List Symbol) : List Symbol :=
  List.insertionSort (· ≤ ·) l

/-- Enumerate a symbol list into a vocabulary, assigning consecutive
ids starting from `i` (`{token: idx for idx, token in enumerate(...)}`,
source line 71). -/
def withIds : List Symbol → Nat → List (Symbol × Nat)
  | [], _ => []
  | s :: rest, i => (s, i) :: withIds rest (i + 1)

/-- `BPETokenizer.train` (source lines 26-71).  Returns the new
tokenizer state and `none`, or — when the Python code raises — the
state as it was at the raise site together with the error.  Both raise
sites precede every mutation of `self`. -/
def train (tok : BPETokenizer) (corpus : List (List Char)) (vocabSize : Nat) :
    BPETokenizer × Option TrainError :=
  if vocabSize < 2 then (tok, some TrainError.invalidArgument)
  else
    let wf := buildWordFreqs corpus
    if wf = [] then (tok, some TrainError.emptyInput)
    else
      let st0 : TrainState :=
        { symbols := initSymbols tok.unkToken wf, merges := [], wordFreqs := wf }
      let r := trainLoop vocabSize (totalLen wf + 1) st0
      let ordered :=
        tok.unkToken :: sortSymbols (r.1.symbols.filter (fun s => s ≠ tok.unkToken))
      ({ tok with merges := r.1.merges, vocab := withIds ordered 0 }, none)

/-- `symbol[:-4] if symbol.endswith("</w>") else symbol` (source
line 87). -/
def cleanSymbol (s : Symbol) : Symbol :=
  if endOfWord.isSuffixOf s then s.take (s.length - endOfWord.length) else s

/-- Apply every learned merge, in list order, to the marked symbol
sequence of one word (source lines 81-83). -/
def applyMerges (merges : List Pair) (w : List Char) : List Symbol :=
  merges.foldl (fun syms p => applyMerge syms p) (wordSymbols w)

/-- The cleaned symbols `encode` looks up for one word: drop the
end-of-word marker symbols, strip the marker suffix (source
lines 84-87). -/
def wordCleanSymbols (merges : List Pair) (w : List Char) : List Symbol :=
  ((applyMerges merges w).filter (fun s => s ≠ endOfWord)).map cleanSymbol

/-- All cleaned symbols of a text, in input order across its words. -/
def encodeCleanSymbols (merges : List Pair) (text : List Char) : List Symbol :=
  ((splitToWords text).map (wordCleanSymbols merges)).flatten

/-- `self.vocab.get(clean_symbol, self.vocab[self.unk_token])`: Python
evaluates the default argument eagerly, so a missing unknown token is a
`KeyError` (modelled as `none`) even when `s` itself is present. -/
def lookupId (vocab : List (Symbol × Nat)) (unk : Symbol) (s : Symbol) : Option Nat :=
  match dictGet vocab unk with
  | none => none
  | some u => some ((dictGet vocab s).getD u)

/-- `BPETokenizer.encode` (source lines 73-89). -/
def encode (tok : BPETokenizer) (text : List Char) : Except CodecError (List Nat) :=
  if tok.vocab = [] then .error CodecError.notTrained
  else
    match (encodeCleanSymbols tok.merges text).mapM (lookupId tok.vocab tok.unkToken) with
    | none => .error CodecError.unkMissing
    | some ids => .ok ids

/-- `{idx: token for token, idx in self.vocab.items()}` (source
line 97); later entries overwrite earlier ones with the same id, as in
a Python dict comprehension. -/
def insertOver (d : List (Nat × Symbol)) (k : Nat) (v : Symbol) : List (Nat × Symbol) :=
  match d with
  | [] => [(k, v)]
  | (k', v') :: rest => if k' = k then (k, v) :: rest else (k', v') :: insertOver rest k v

/-- The inverse vocabulary built by `decode`. -/
def invVocab (vocab : List (Symbol × Nat)) : List (Nat × Symbol) :=
  vocab.foldl (fun d e => insertOver d e.2 e.1) []

/-- Lookup in the inverse vocabulary. -/
def invGet (d : List (Nat × Symbol)) (k : Nat) : Option Symbol :=
  match d with
  | [] => none
  | (k', v) :: rest => if k' = k then some v else invGet rest k

/-- `text.replace("▁", " ")` character by character (the word-start
marker is a single character). -/
def replaceStart (c : Char) : Char :=
  if c = wordStart then ' ' else c

/-- `BPETokenizer.decode` (source lines 91-103). -/
def decode (tok : BPETokenizer) (ids : List Nat) : Except CodecError (List Char) :=
  if tok.vocab = [] then .error CodecError.notTrained
  else
    let inverse := invVocab tok.vocab
    let pieces := ids.map (fun i => (invGet inverse i).getD tok.unkToken)
    .ok (stripChars (pieces.flatten.map replaceStart))

/-- Join words with single spaces. -/
def joinWords : List (List Char) → List Char
  | [] => []
  | [w] => w
  | w :: w' :: rest => w ++ ' ' :: joinWords (w' :: rest)

/-- Whitespace normalization as described by the spec: runs of
whitespace collapse to single spaces and outer whitespace is removed,
i.e. the whitespace-separated words joined by single spaces. -/
def normalizeText (l : List Char) : List Char :=
  joinWords (splitWs l)

/-- A word is fully representable by the trained tokenizer: every
symbol of its final segmentation (apart from the trailing end-of-word
marker) is a vocabulary key, is not itself the marker string, and does
not end with the marker string (so `encode` stores it unchanged). -/
def representableWord (tok : BPETokenizer) (w : List Char) : Prop :=
  ∀ s ∈ (applyMerges tok.merges w).dropLast,
    s ≠ endOfWord ∧ endOfWord.isSuffixOf s = false ∧ dictGet tok.vocab s ≠ none

instance (tok : BPETokenizer) (w : List Char) : Decidable (representableWord tok w) :=
  inferInstanceAs (Decidable (∀ s ∈ (applyMerges tok.merges w).dropLast,
    s ≠ endOfWord ∧ endOfWord.isSuffixOf s = false ∧ dictGet tok.vocab s ≠ none))

/-- The state reached by the training merge loop inside `train` (same
arguments as in the body of `train`); exposed so that theorems can
speak about the surviving symbol set. -/
def trainedState (tok : BPETokenizer) (corpus : List (List Char)) (vocabSize : Nat) :
    TrainState :=
  let wf := buildWordFreqs corpus
  (trainLoop vocabSize (totalLen wf + 1)
    { symbols := initSymbols tok.unkToken wf, merges := [], wordFreqs := wf }).1

/-- The vocabulary produced by a successful `train` call, as built on
source lines 68-71. -/
def trainedVocab (tok : BPETokenizer) (corpus : List (List Char)) (vocabSize : Nat) :
    List (Symbol × Nat) :=
  withIds
    (tok.unkToken ::
      sortSymbols ((trainedState tok corpus vocabSize).symbols.filter
        (fun s => s ≠ tok.unkToken)))
    0

/-! ### Association-list and `bestOf` lemmas -/

theorem insertAdd_ne_nil {α : Type} [DecidableEq α] (d : List (α × Nat)) (k : α) (n : Nat) :
    insertAdd d k n ≠ [] := by
  cases d with
  | nil => simp [insertAdd]
  | cons e rest =>
    obtain ⟨k', v⟩ := e
    by_cases h : k' = k <;> simp [insertAdd, h]

theorem mem_insertAdd_key {α : Type} [DecidableEq α] {d : List (α × Nat)} {k k' : α}
    {n v' : Nat} (h : (k', v') ∈ insertAdd d k n) : k' = k ∨ ∃ v, (k', v) ∈ d := by
  induction d with
  | nil =>
    simp [insertAdd] at h
    exact Or.inl h.1
  | cons e rest ih =>
    obtain ⟨k₀, v₀⟩ := e
    by_cases hk : k₀ = k
    · have hstep : insertAdd ((k₀, v₀) :: rest) k n = (k₀, v₀ + n) :: rest := by
        simp [insertAdd, hk]
      rw [hstep, List.mem_cons] at h
      rcases h with heq | hmem
      · rw [Prod.mk.injEq] at heq
        exact Or.inl (heq.1.trans hk)
      · exact Or.inr ⟨v', List.mem_cons_of_mem _ hmem⟩
    · have hstep : insertAdd ((k₀, v₀) :: rest) k n = (k₀, v₀) :: insertAdd rest k n := by
        simp [insertAdd, hk]
      rw [hstep, List.mem_cons] at h
      rcases h with heq | hmem
      · rw [Prod.mk.injEq] at heq
        exact Or.inr ⟨v₀, by rw [heq.1]; exact List.mem_cons_self _ _⟩
      · rcases ih hmem with h' | ⟨v, hv⟩
        · exact Or.inl h'
        · exact Or.inr ⟨v, List.mem_cons_of_mem _ hv⟩

theorem bestOf_aux_mem {α : Type} (d : List (α × Nat)) :
    ∀ (acc : Option (α × Nat)) (kv : α × Nat),
      d.foldl
        (fun acc kv =>
          match acc with
          | none => some kv
          | some best => if kv.2 > best.2 then some kv else acc)
        acc = some kv →
      acc = some kv ∨ kv ∈ d := by
  induction d with
  | nil => exact fun acc kv h => Or.inl h
  | cons x xs ih =>
    intro acc kv h
    simp only [List.foldl_cons] at h
    rcases ih _ kv h with h' | h'
    · cases acc with
      | none =>
        simp only [Option.some.injEq] at h'
        exact Or.inr (by simp [h'])
      | some best =>
        by_cases hgt : x.2 > best.2
        · simp only [hgt, if_pos, Option.some.injEq] at h'
          exact Or.inr (by simp [h'])
        · simp only [hgt, if_neg, not_false_iff] at h'
          exact Or.inl h'
    · exact Or.inr (List.mem_cons_of_mem _ h')

theorem bestOf_mem {α : Type} {d : List (α × Nat)} {kv : α × Nat}
    (h : bestOf d = some kv) : kv ∈ d := by
  rcases bestOf_aux_mem d none kv h with h' | h'
  · cases h'
  · exact h'

theorem bestOf_aux_ne_none {α : Type} (d : List (α × Nat)) (x : α × Nat) :
    d.foldl
      (fun acc kv =>
        match acc with
        | none => some kv
        | some best => if kv.2 > best.2 then some kv else acc)
      (some x) ≠ none := by
  induction d generalizing x with
  | nil => simp
  | cons y ys ih =>
    simp only [List.foldl_cons]
    by_cases hgt : y.2 > x.2 <;> simp [hgt, ih]

theorem bestOf_eq_none_iff {α : Type} (d : List (α × Nat)) : bestOf d = none ↔ d = [] := by
  constructor
  · intro h
    cases d with
    | nil => rfl
    | cons x xs =>
      exact absurd h (by simpa [bestOf] using bestOf_aux_ne_none xs x)
  · rintro rfl
    rfl

/-! ### Whitespace splitting lemmas -/

theorem splitWsAux_tokens (l : List Char) :
    ∀ acc, (∀ c ∈ acc, isSpace c = false) →
      ∀ t ∈ splitWsAux l acc, t ≠ [] ∧ ∀ c ∈ t, isSpace c = false := by
  induction l with
  | nil =>
    intro acc hacc t ht
    by_cases h : acc = []
    · simp [splitWsAux, h] at ht
    · simp only [splitWsAux, if_neg h, List.mem_singleton] at ht
      subst ht
      exact ⟨by simpa using h, fun c hc => hacc c (List.mem_reverse.mp hc)⟩
  | cons c rest ih =>
    intro acc hacc t ht
    by_cases hs : isSpace c
    · by_cases h : acc = []
      · rw [splitWsAux, if_pos hs, if_pos h] at ht
        exact ih [] (by simp) t ht
      · rw [splitWsAux, if_pos hs, if_neg h] at ht
        rcases List.mem_cons.mp ht with h' | h'
        · subst h'
          exact ⟨by simpa using h, fun c hc => hacc c (List.mem_reverse.mp hc)⟩
        · exact ih [] (by simp) t h'
    · rw [splitWsAux, if_neg hs] at ht
      refine ih (c :: acc) ?_ t ht
      intro c' hc'
      rcases List.mem_cons.mp hc' with h' | h'
      · subst h'
        simpa using hs
      · exact hacc c' h'

theorem splitWs_tokens {l : List Char} {t : List Char} (ht : t ∈ splitWs l) :
    t ≠ [] ∧ ∀ c ∈ t, isSpace c = false :=
  splitWsAux_tokens l [] (by simp) t ht

theorem splitWsAux_dropLeading (l : List Char) :
    splitWsAux (l.dropWhile isSpace) [] = splitWsAux l [] := by
  induction l with
  | nil => rfl
  | cons c rest ih =>
    by_cases hs : isSpace c
    · rw [List.dropWhile_cons_of_pos hs, ih, splitWsAux, if_pos hs, if_pos rfl]
    · rw [List.dropWhile_cons_of_neg hs]

theorem splitWsAux_allSpace (s : List Char) (hs : ∀ c ∈ s, isSpace c = true) :
    ∀ acc, splitWsAux s acc = if acc = [] then [] else [acc.reverse] := by
  induction s with
  | nil => intro acc; rfl
  | cons c s' ih =>
    intro acc
    have hc : isSpace c := hs c (by simp)
    have hs' : ∀ c ∈ s', isSpace c = true := fun c hc' => hs c (List.mem_cons_of_mem _ hc')
    by_cases h : acc = []
    · rw [splitWsAux, if_pos hc, if_pos h, ih hs', if_pos rfl, if_pos h]
    · rw [splitWsAux, if_pos hc, if_neg h, ih hs', if_pos rfl, if_neg h]

theorem splitWsAux_append_spaces (l s : List Char) (hs : ∀ c ∈ s, isSpace c = true) :
    ∀ acc, splitWsAux (l ++ s) acc = splitWsAux l acc := by
  induction l with
  | nil =>
    intro acc
    rw [List.nil_append, splitWsAux_allSpace s hs acc, splitWsAux]
  | cons c rest ih =>
    intro acc
    by_cases hc : isSpace c
    · by_cases h : acc = []
      · rw [List.cons_append, splitWsAux, if_pos hc, if_pos h, ih, splitWsAux, if_pos hc,
          if_pos h]
      · rw [List.cons_append, splitWsAux, if_pos hc, if_neg h, ih, splitWsAux, if_pos hc,
          if_neg h]
    · rw [List.cons_append, splitWsAux, if_neg hc, ih, splitWsAux, if_neg hc]

theorem splitWs_stripChars (l : List Char) : splitWs (stripChars l) = splitWs l := by
  have hdecomp :
      l.dropWhile isSpace =
        stripChars l ++ ((l.dropWhile isSpace).reverse.takeWhile isSpace).reverse := by
    have h := List.takeWhile_append_dropWhile (p := isSpace)
      (l := (l.dropWhile isSpace).reverse)
    calc l.dropWhile isSpace
        = (l.dropWhile isSpace).reverse.reverse := by rw [List.reverse_reverse]
      _ = (((l.dropWhile isSpace).reverse.takeWhile isSpace) ++
            ((l.dropWhile isSpace).reverse.dropWhile isSpace)).reverse := by rw [h]
      _ = stripChars l ++ ((l.dropWhile isSpace).reverse.takeWhile isSpace).reverse := by
            rw [List.reverse_append]; rfl
  have hsp : ∀ c ∈ ((l.dropWhile isSpace).reverse.takeWhile isSpace).reverse,
      isSpace c = true := by
    intro c hc
    exact List.mem_takeWhile_imp (List.mem_reverse.mp hc)
  calc splitWs (stripChars l)
      = splitWsAux (stripChars l) [] := rfl
    _ = splitWsAux (stripChars l ++
          ((l.dropWhile isSpace).reverse.takeWhile isSpace).reverse) [] := by
        rw [splitWsAux_append_spaces _ _ hsp]
    _ = splitWsAux (l.dropWhile isSpace) [] := by rw [← hdecomp]
    _ = splitWs l := splitWsAux_dropLeading l

theorem splitToWords_eq_splitWs (l : List Char) : splitToWords l = splitWs l :=
  splitWs_stripChars l

/-! ### Merge-scan lemmas -/

theorem mergeWord_eq_applyMerge (p : Pair) : ∀ w, mergeWord p w = applyMerge w p
  | [] => rfl
  | [_] => rfl
  | a :: b :: rest => by
    by_cases h : a = p.1 ∧ b = p.2
    · simp only [mergeWord, applyMerge, if_pos h, mergeWord_eq_applyMerge p rest]
    · simp only [mergeWord, applyMerge, if_neg h, mergeWord_eq_applyMerge p (b :: rest)]

theorem applyMerge_flatten (p : Pair) : ∀ l, (applyMerge l p).flatten = l.flatten
  | [] => rfl
  | [_] => rfl
  | a :: b :: rest => by
    by_cases h : a = p.1 ∧ b = p.2
    · obtain ⟨rfl, rfl⟩ := h
      have hstep : applyMerge (p.1 :: p.2 :: rest) p = (p.1 ++ p.2) :: applyMerge rest p := by
        simp [applyMerge]
      rw [hstep, List.flatten_cons, List.flatten_cons, List.flatten_cons,
        applyMerge_flatten p rest, List.append_assoc]
    · simp only [applyMerge, if_neg h, List.flatten_cons, applyMerge_flatten p (b :: rest)]

theorem mergeWord_length_le (p : Pair) : ∀ w, (mergeWord p w).length ≤ w.length
  | [] => le_refl _
  | [_] => le_refl _
  | a :: b :: rest => by
    by_cases h : a = p.1 ∧ b = p.2
    · simp only [mergeWord, if_pos h, List.length_cons]
      exact Nat.le_succ_of_le (Nat.succ_le_succ (mergeWord_length_le p rest))
    · simp only [mergeWord, if_neg h, List.length_cons]
      exact Nat.succ_le_succ (mergeWord_length_le p (b :: rest))

theorem wordAdjPairs_cons (a b : Symbol) (rest : Word) :
    wordAdjPairs (a :: b :: rest) = (a, b) :: wordAdjPairs (b :: rest) := rfl

theorem mergeWord_length_lt (p : Pair) :
    ∀ w, p ∈ wordAdjPairs w → (mergeWord p w).length < w.length
  | [], hp => by simp [wordAdjPairs] at hp
  | [_], hp => by simp [wordAdjPairs] at hp
  | a :: b :: rest, hp => by
    by_cases h : a = p.1 ∧ b = p.2
    · simp only [mergeWord, if_pos h, List.length_cons]
      exact Nat.succ_le_succ (Nat.succ_le_succ (mergeWord_length_le p rest))
    · rw [wordAdjPairs_cons, List.mem_cons] at hp
      rcases hp with hp | hp
      · exact absurd ⟨congrArg Prod.fst hp.symm, congrArg Prod.snd hp.symm⟩ h
      · simp only [mergeWord, if_neg h, List.length_cons]
        exact Nat.succ_lt_succ (mergeWord_length_lt p (b :: rest) hp)

/-! ### Pair-statistics lemmas -/

theorem getStats_inner_mem (f : Nat) (pairs : List Pair) :
    ∀ (acc : List (Pair × Nat)) (q : Pair) (c : Nat),
      (q, c) ∈ pairs.foldl
        (fun stats p =>
          if p.1 = endOfWord ∨ p.2 = endOfWord then stats else insertAdd stats p f)
        acc →
      (∃ c', (q, c') ∈ acc) ∨ (q ∈ pairs ∧ q.1 ≠ endOfWord ∧ q.2 ≠ endOfWord) := by
  induction pairs with
  | nil => exact fun acc q c h => Or.inl ⟨c, h⟩
  | cons p ps ih =>
    intro acc q c h
    simp only [List.foldl_cons] at h
    rcases ih _ q c h with ⟨c', hc'⟩ | ⟨hq, h1, h2⟩
    · by_cases hm : p.1 = endOfWord ∨ p.2 = endOfWord
      · rw [if_pos hm] at hc'
        exact Or.inl ⟨c', hc'⟩
      · rw [if_neg hm] at hc'
        rcases mem_insertAdd_key hc' with hq | ⟨v, hv⟩
        · subst hq
          push_neg at hm
          exact Or.inr ⟨List.mem_cons_self _ _, hm.1, hm.2⟩
        · exact Or.inl ⟨v, hv⟩
    · exact Or.inr ⟨List.mem_cons_of_mem _ hq, h1, h2⟩

theorem getStats_outer_mem (wf : WordFreqs) :
    ∀ (acc : List (Pair × Nat)) (q : Pair) (c : Nat),
      (q, c) ∈ wf.foldl
        (fun stats e =>
          (wordAdjPairs e.1).foldl
            (fun stats p =>
              if p.1 = endOfWord ∨ p.2 = endOfWord then stats else insertAdd stats p e.2)
            stats)
        acc →
      (∃ c', (q, c') ∈ acc) ∨
        ((∃ w f, (w, f) ∈ wf ∧ q ∈ wordAdjPairs w) ∧
          q.1 ≠ endOfWord ∧ q.2 ≠ endOfWord) := by
  induction wf with
  | nil => exact fun acc q c h => Or.inl ⟨c, h⟩
  | cons e es ih =>
    intro acc q c h
    simp only [List.foldl_cons] at h
    rcases ih _ q c h with ⟨c', hc'⟩ | ⟨⟨w, f, hw, hq⟩, h1, h2⟩
    · rcases getStats_inner_mem e.2 (wordAdjPairs e.1) acc q c' hc' with ⟨c'', hc''⟩ | ⟨hq, h1, h2⟩
      · exact Or.inl ⟨c'', hc''⟩
      · exact Or.inr ⟨⟨e.1, e.2, by simp, hq⟩, h1, h2⟩
    · exact Or.inr ⟨⟨w, f, List.mem_cons_of_mem _ hw, hq⟩, h1, h2⟩

theorem mem_getStats {wf : WordFreqs} {q : Pair} {c : Nat} (h : (q, c) ∈ getStats wf) :
    (∃ w f, (w, f) ∈ wf ∧ q ∈ wordAdjPairs w) ∧ q.1 ≠ endOfWord ∧ q.2 ≠ endOfWord := by
  rcases getStats_outer_mem wf [] q c h with ⟨c', hc'⟩ | h'
  · simp at hc'
  · exact h'

/-! ### Total-length decrease -/

theorem totalLen_cons (w : Word) (f : Nat) (rest : WordFreqs) :
    totalLen ((w, f) :: rest) = w.length + totalLen rest := by
  simp [totalLen]

theorem totalLen_insertAdd_le (d : WordFreqs) (w : Word) (n : Nat) :
    totalLen (insertAdd d w n) ≤ totalLen d + w.length := by
  induction d with
  | nil => simp [insertAdd, totalLen]
  | cons e rest ih =>
    obtain ⟨w₀, v₀⟩ := e
    by_cases hw : w₀ = w
    · have hstep : insertAdd ((w₀, v₀) :: rest) w n = (w₀, v₀ + n) :: rest := by
        simp [insertAdd, hw]
      rw [hstep, totalLen_cons, totalLen_cons]
      exact Nat.le_add_right _ _
    · have hstep : insertAdd ((w₀, v₀) :: rest) w n = (w₀, v₀) :: insertAdd rest w n := by
        simp [insertAdd, hw]
      rw [hstep, totalLen_cons, totalLen_cons, Nat.add_assoc]
      exact Nat.add_le_add_left ih _

theorem totalLen_mergeFold_le (p : Pair) (entries : WordFreqs) :
    ∀ acc, totalLen (entries.foldl (fun acc e => insertAdd acc (mergeWord p e.1) e.2) acc) ≤
      totalLen acc + (entries.map (fun e => (mergeWord p e.1).length)).sum := by
  induction entries with
  | nil => intro acc; simp
  | cons e es ih =>
    intro acc
    simp only [List.foldl_cons, List.map_cons, List.sum_cons]
    calc totalLen (es.foldl (fun acc e => insertAdd acc (mergeWord p e.1) e.2)
            (insertAdd acc (mergeWord p e.1) e.2))
        ≤ totalLen (insertAdd acc (mergeWord p e.1) e.2) +
            (es.map (fun e => (mergeWord p e.1).length)).sum := ih _
      _ ≤ (totalLen acc + (mergeWord p e.1).length) +
            (es.map (fun e => (mergeWord p e.1).length)).sum :=
          Nat.add_le_add_right (totalLen_insertAdd_le _ _ _) _
      _ = totalLen acc + ((mergeWord p e.1).length +
            (es.map (fun e => (mergeWord p e.1).length)).sum) := by
          rw [Nat.add_assoc]

theorem mergedSum_le (p : Pair) (wf : WordFreqs) :
    (wf.map (fun e => (mergeWord p e.1).length)).sum ≤ totalLen wf := by
  induction wf with
  | nil => simp [totalLen]
  | cons e es ih =>
    obtain ⟨w, f⟩ := e
    simp only [List.map_cons, List.sum_cons, totalLen_cons]
    exact Nat.add_le_add (mergeWord_length_le p w) ih

theorem mergedSum_lt (p : Pair) {wf : WordFreqs}
    (hw : ∃ w f, (w, f) ∈ wf ∧ p ∈ wordAdjPairs w) :
    (wf.map (fun e => (mergeWord p e.1).length)).sum < totalLen wf := by
  induction wf with
  | nil => simp at hw
  | cons e es ih =>
    obtain ⟨w₀, f₀⟩ := e
    obtain ⟨w, f, hmem, hadj⟩ := hw
    simp only [List.map_cons, List.sum_cons, totalLen_cons]
    rcases List.mem_cons.mp hmem with heq | hmem'
    · rw [Prod.mk.injEq] at heq
      have hlt := mergeWord_length_lt p w hadj
      rw [heq.1] at hlt
      exact Nat.add_lt_add_of_lt_of_le hlt (mergedSum_le p es)
    · exact Nat.add_lt_add_of_le_of_lt (mergeWord_length_le p w₀) (ih ⟨w, f, hmem', hadj⟩)

theorem totalLen_mergeVocab_lt (p : Pair) {wf : WordFreqs}
    (hw : ∃ w f, (w, f) ∈ wf ∧ p ∈ wordAdjPairs w) :
    totalLen (mergeVocab p wf) < totalLen wf := by
  have h1 := totalLen_mergeFold_le p wf []
  have h2 := mergedSum_lt p hw
  simp only [totalLen] at h1 ⊢
  calc ((mergeVocab p wf).map (fun e => e.1.length)).sum
      ≤ 0 + (wf.map (fun e => (mergeWord p e.1).length)).sum := h1
    _ = (wf.map (fun e => (mergeWord p e.1).length)).sum := Nat.zero_add _
    _ < (wf.map (fun e => e.1.length)).sum := h2

/-! ### Training-loop unfolding and termination -/

theorem trainLoop_succ (n fuel : Nat) (st : TrainState) :
    trainLoop n (fuel + 1) st =
      if st.symbols.length < n then
        match bestOf (getStats st.wordFreqs) with
        | none => (st, true)
        | some best =>
          trainLoop n fuel
            { symbols := insertNew st.symbols (best.1.1 ++ best.1.2)
              merges := st.merges ++ [best.1]
              wordFreqs := mergeVocab best.1 st.wordFreqs }
      else (st, true) := rfl

theorem trainLoop_done (n : Nat) :
    ∀ (fuel : Nat) (st : TrainState), totalLen st.wordFreqs < fuel →
      (trainLoop n fuel st).2 = true ∧
        (n ≤ (trainLoop n fuel st).1.symbols.length ∨
          getStats (trainLoop n fuel st).1.wordFreqs = []) := by
  intro fuel
  induction fuel with
  | zero => intro st h; cases h
  | succ fuel ih =>
    intro st h
    rw [trainLoop_succ]
    by_cases hlt : st.symbols.length < n
    · rw [if_pos hlt]
      cases hb : bestOf (getStats st.wordFreqs) with
      | none =>
        refine ⟨rfl, Or.inr ?_⟩
        exact bestOf_eq_none_iff _ |>.mp hb
      | some best =>
        have hmem := bestOf_mem hb
        have horigin := (mem_getStats hmem).1
        have hdec : totalLen (mergeVocab best.1 st.wordFreqs) < totalLen st.wordFreqs :=
          totalLen_mergeVocab_lt best.1 horigin
        exact ih _ (Nat.lt_of_lt_of_le hdec (Nat.lt_succ_iff.mp h))
    · rw [if_neg hlt]
      exact ⟨rfl, Or.inl (Nat.le_of_not_lt hlt)⟩

/-! ### Symbol-set lemmas -/

theorem mem_insertNew_of_mem {l : List Symbol} {s x : Symbol} (h : s ∈ l) :
    s ∈ insertNew l x := by
  unfold insertNew
  split
  · exact h
  · exact List.mem_append_left _ h

theorem mem_insertNew_self (l : List Symbol) (s : Symbol) : s ∈ insertNew l s := by
  unfold insertNew
  split
  · assumption
  · exact List.mem_append_right _ (List.mem_singleton.mpr rfl)

theorem length_insertNew_le (l : List Symbol) (s : Symbol) :
    (insertNew l s).length ≤ l.length + 1 := by
  unfold insertNew
  split
  · exact Nat.le_succ _
  · simp

theorem nodup_insertNew {l : List Symbol} (s : Symbol) (h : l.Nodup) :
    (insertNew l s).Nodup := by
  unfold insertNew
  by_cases hmem : s ∈ l
  · rw [if_pos hmem]; exact h
  · rw [if_neg hmem, List.nodup_append]
    refine ⟨h, List.nodup_singleton s, ?_⟩
    intro a ha hb
    rw [List.mem_singleton] at hb
    subst hb
    exact hmem ha

theorem mem_symFold_of_mem (w : Word) :
    ∀ (acc : List Symbol) (s : Symbol), s ∈ acc →
      s ∈ w.foldl (fun syms x => if x = endOfWord then syms else insertNew syms x) acc := by
  induction w with
  | nil => exact fun acc s h => h
  | cons x xs ih =>
    intro acc s h
    simp only [List.foldl_cons]
    by_cases hx : x = endOfWord
    · rw [if_pos hx]
      exact ih _ _ h
    · rw [if_neg hx]
      exact ih _ _ (mem_insertNew_of_mem h)

theorem mem_symFold_of_mem_word (w : Word) :
    ∀ (acc : List Symbol) (s : Symbol), s ∈ w → s ≠ endOfWord →
      s ∈ w.foldl (fun syms x => if x = endOfWord then syms else insertNew syms x) acc := by
  induction w with
  | nil => intro acc s h; cases h
  | cons x xs ih =>
    intro acc s hs hne
    simp only [List.foldl_cons]
    rcases List.mem_cons.mp hs with rfl | hs'
    · rw [if_neg hne]
      exact mem_symFold_of_mem xs _ s (mem_insertNew_self _ _)
    · by_cases hx : x = endOfWord
      · rw [if_pos hx]
        exact ih _ s hs' hne
      · rw [if_neg hx]
        exact ih _ s hs' hne

theorem mem_outerSymFold_of_mem (wf : WordFreqs) :
    ∀ (acc : List Symbol) (s : Symbol), s ∈ acc →
      s ∈ wf.foldl
        (fun syms e =>
          e.1.foldl (fun syms x => if x = endOfWord then syms else insertNew syms x) syms)
        acc := by
  induction wf with
  | nil => exact fun acc s h => h
  | cons e es ih =>
    intro acc s h
    simp only [List.foldl_cons]
    exact ih _ _ (mem_symFold_of_mem e.1 _ _ h)

theorem unk_mem_initSymbols (unk : Symbol) (wf : WordFreqs) : unk ∈ initSymbols unk wf :=
  mem_outerSymFold_of_mem wf [unk] unk (List.mem_singleton.mpr rfl)

theorem mem_outerSymFold_of_mem_word (wf : WordFreqs) :
    ∀ (acc : List Symbol) (w : Word) (f : Nat) (s : Symbol),
      (w, f) ∈ wf → s ∈ w → s ≠ endOfWord →
      s ∈ wf.foldl
        (fun syms e =>
          e.1.foldl (fun syms x => if x = endOfWord then syms else insertNew syms x) syms)
        acc := by
  induction wf with
  | nil => intro acc w f s h; cases h
  | cons e es ih =>
    intro acc w f s hmem hs hne
    simp only [List.foldl_cons]
    rcases List.mem_cons.mp hmem with heq | hmem'
    · have hw : s ∈ e.1 := by
        have : w = e.1 := congrArg Prod.fst heq
        rw [← this]
        exact hs
      exact mem_outerSymFold_of_mem es _ s (mem_symFold_of_mem_word e.1 acc s hw hne)
    · exact ih _ w f s hmem' hs hne

theorem mem_initSymbols_of_mem {wf : WordFreqs} {w : Word} {f : Nat} {s : Symbol}
    (unk : Symbol) (hmem : (w, f) ∈ wf) (hs : s ∈ w) (hne : s ≠ endOfWord) :
    s ∈ initSymbols unk wf :=
  mem_outerSymFold_of_mem_word wf [unk] w f s hmem hs hne

theorem symFold_nodup (w : Word) :
    ∀ (acc : List Symbol), acc.Nodup →
      (w.foldl (fun syms x => if x = endOfWord then syms else insertNew syms x) acc).Nodup := by
  induction w with
  | nil => exact fun acc h => h
  | cons x xs ih =>
    intro acc h
    simp only [List.foldl_cons]
    by_cases hx : x = endOfWord
    · rw [if_pos hx]; exact ih _ h
    · rw [if_neg hx]; exact ih _ (nodup_insertNew x h)

theorem initSymbols_nodup (unk : Symbol) (wf : WordFreqs) : (initSymbols unk wf).Nodup := by
  unfold initSymbols
  have : ∀ (acc : List Symbol), acc.Nodup →
      (wf.foldl
        (fun syms e =>
          e.1.foldl (fun syms x => if x = endOfWord then syms else insertNew syms x) syms)
        acc).Nodup := by
    induction wf with
    | nil => exact fun acc h => h
    | cons e es ih =>
      intro acc h
      simp only [List.foldl_cons]
      exact ih _ (symFold_nodup e.1 acc h)
  exact this [unk] (List.nodup_singleton unk)

/-! ### Training-loop invariants -/

theorem trainLoop_merges_no_marker (n : Nat) :
    ∀ (fuel : Nat) (st : TrainState),
      (∀ p ∈ st.merges, p.1 ≠ endOfWord ∧ p.2 ≠ endOfWord) →
      ∀ p ∈ (trainLoop n fuel st).1.merges, p.1 ≠ endOfWord ∧ p.2 ≠ endOfWord := by
  intro fuel
  induction fuel with
  | zero => exact fun st h => h
  | succ fuel ih =>
    intro st h
    rw [trainLoop_succ]
    by_cases hlt : st.symbols.length < n
    · rw [if_pos hlt]
      cases hb : bestOf (getStats st.wordFreqs) with
      | none => exact h
      | some best =>
        refine ih _ ?_
        intro p hp
        simp only [List.mem_append, List.mem_singleton] at hp
        rcases hp with hp | rfl
        · exact h p hp
        · exact (mem_getStats (bestOf_mem hb)).2
    · rw [if_neg hlt]
      exact h

theorem trainLoop_symbols_mono (n : Nat) :
    ∀ (fuel : Nat) (st : TrainState) (s : Symbol),
      s ∈ st.symbols → s ∈ (trainLoop n fuel st).1.symbols := by
  intro fuel
  induction fuel with
  | zero => exact fun st s h => h
  | succ fuel ih =>
    intro st s h
    rw [trainLoop_succ]
    by_cases hlt : st.symbols.length < n
    · rw [if_pos hlt]
      cases hb : bestOf (getStats st.wordFreqs) with
      | none => exact h
      | some best => exact ih _ s (mem_insertNew_of_mem h)
    · rw [if_neg hlt]
      exact h

theorem trainLoop_symbols_le (n : Nat) :
    ∀ (fuel : Nat) (st : TrainState),
      (trainLoop n fuel st).1.symbols.length ≤ max n st.symbols.length := by
  intro fuel
  induction fuel with
  | zero => exact fun st => Nat.le_max_right _ _
  | succ fuel ih =>
    intro st
    rw [trainLoop_succ]
    by_cases hlt : st.symbols.length < n
    · rw [if_pos hlt]
      cases hb : bestOf (getStats st.wordFreqs) with
      | none => exact Nat.le_max_right _ _
      | some best =>
        refine Nat.le_trans (ih _) ?_
        have hnew : (insertNew st.symbols (best.1.1 ++ best.1.2)).length ≤ n :=
          Nat.le_trans (length_insertNew_le _ _) hlt
        calc max n (insertNew st.symbols (best.1.1 ++ best.1.2)).length
            = n := Nat.max_eq_left hnew
          _ ≤ max n st.symbols.length := Nat.le_max_left _ _
    · rw [if_neg hlt]
      exact Nat.le_max_right _ _

theorem wordFold_eq_nil_iff (ws : List (List Char)) :
    ∀ (acc : WordFreqs),
      ws.foldl (fun wf w => insertAdd wf (wordSymbols w) 1) acc = [] ↔
        acc = [] ∧ ws = [] := by
  induction ws with
  | nil => intro acc; simp
  | cons w ws' ih =>
    intro acc
    simp only [List.foldl_cons]
    rw [ih]
    simp [insertAdd_ne_nil]

theorem buildWordFreqs_eq_nil_iff (corpus : List (List Char)) :
    buildWordFreqs corpus = [] ↔ ∀ line ∈ corpus, splitToWords line = [] := by
  have main : ∀ (cs : List (List Char)) (acc : WordFreqs),
      cs.foldl
        (fun wf line => (splitToWords line).foldl (fun wf w => insertAdd wf (wordSymbols w) 1) wf)
        acc = [] ↔
        acc = [] ∧ ∀ line ∈ cs, splitToWords line = [] := by
    intro cs
    induction cs with
    | nil => intro acc; simp
    | cons line rest ih =>
      intro acc
      simp only [List.foldl_cons]
      rw [ih, wordFold_eq_nil_iff]
      constructor
      · rintro ⟨⟨h1, h2⟩, h3⟩
        exact ⟨h1, by
          intro l hl
          rcases List.mem_cons.mp hl with rfl | hl'
          · exact h2
          · exact h3 l hl'⟩
      · rintro ⟨h1, h2⟩
        exact ⟨⟨h1, h2 line (List.mem_cons_self _ _)⟩,
          fun l hl => h2 l (List.mem_cons_of_mem _ hl)⟩
  simpa using main corpus []

theorem buildWF_inner_mem (ws : List (List Char)) :
    ∀ (acc : WordFreqs) (w : Word) (f : Nat),
      (w, f) ∈ ws.foldl (fun wf v => insertAdd wf (wordSymbols v) 1) acc →
      (∃ f', (w, f') ∈ acc) ∨ ∃ v, w = wordSymbols v := by
  induction ws with
  | nil => exact fun acc w f h => Or.inl ⟨f, h⟩
  | cons v vs ih =>
    intro acc w f h
    simp only [List.foldl_cons] at h
    rcases ih _ w f h with ⟨f', hf'⟩ | hr
    · rcases mem_insertAdd_key hf' with rfl | ⟨f'', hf''⟩
      · exact Or.inr ⟨v, rfl⟩
      · exact Or.inl ⟨f'', hf''⟩
    · exact Or.inr hr

theorem mem_buildWordFreqs_shape {corpus : List (List Char)} {w : Word} {f : Nat}
    (h : (w, f) ∈ buildWordFreqs corpus) : ∃ v, w = wordSymbols v := by
  have main : ∀ (cs : List (List Char)) (acc : WordFreqs) (w : Word) (f : Nat),
      (w, f) ∈ cs.foldl
        (fun wf line => (splitToWords line).foldl (fun wf v => insertAdd wf (wordSymbols v) 1) wf)
        acc →
      (∃ f', (w, f') ∈ acc) ∨ ∃ v, w = wordSymbols v := by
    intro cs
    induction cs with
    | nil => exact fun acc w f h => Or.inl ⟨f, h⟩
    | cons line rest ih =>
      intro acc w f h
      simp only [List.foldl_cons] at h
      rcases ih _ w f h with ⟨f', hf'⟩ | hr
      · exact buildWF_inner_mem _ _ w f' hf'
      · exact Or.inr hr
  rcases main corpus [] w f h with ⟨f', hf'⟩ | hr
  · simp at hf'
  · exact hr

theorem trainLoop_symbols_nodup (n : Nat) :
    ∀ (fuel : Nat) (st : TrainState),
      st.symbols.Nodup → (trainLoop n fuel st).1.symbols.Nodup := by
  intro fuel
  induction fuel with
  | zero => exact fun st h => h
  | succ fuel ih =>
    intro st h
    rw [trainLoop_succ]
    by_cases hlt : st.symbols.length < n
    · rw [if_pos hlt]
      cases hb : bestOf (getStats st.wordFreqs) with
      | none => exact h
      | some best => exact ih _ (nodup_insertNew _ h)
    · rw [if_neg hlt]
      exact h

/-! ### Vocabulary enumeration lemmas -/

theorem length_withIds (l : List Symbol) : ∀ i, (withIds l i).length = l.length := by
  induction l with
  | nil => intro i; rfl
  | cons s rest ih => intro i; simp [withIds, ih]

theorem dictGet_withIds_head (s : Symbol) (rest : List Symbol) (i : Nat) :
    dictGet (withIds (s :: rest) i) s = some i := by
  simp [withIds, dictGet]

theorem dictGet_withIds_of_not_mem {l : List Symbol} {s : Symbol} (h : s ∉ l) :
    ∀ i, dictGet (withIds l i) s = none := by
  induction l with
  | nil => intro i; rfl
  | cons x rest ih =>
    intro i
    have hx : x ≠ s := fun he => h (he ▸ List.mem_cons_self _ _)
    simp only [withIds, dictGet, if_neg hx]
    exact ih (fun hr => h (List.mem_cons_of_mem _ hr)) (i + 1)

theorem mem_withIds_fst {l : List Symbol} {s : Symbol} {v : Nat} :
    ∀ {i}, (s, v) ∈ withIds l i → s ∈ l := by
  induction l with
  | nil => intro i h; cases h
  | cons x rest ih =>
    intro i h
    rcases List.mem_cons.mp h with heq | hmem
    · rw [Prod.mk.injEq] at heq
      exact heq.1 ▸ List.mem_cons_self _ _
    · exact List.mem_cons_of_mem _ (ih hmem)

theorem withIds_snd_lb {l : List Symbol} {s : Symbol} {v : Nat} :
    ∀ {i}, (s, v) ∈ withIds l i → i ≤ v := by
  induction l with
  | nil => intro i h; cases h
  | cons x rest ih =>
    intro i h
    rcases List.mem_cons.mp h with heq | hmem
    · rw [Prod.mk.injEq] at heq
      exact heq.2 ▸ Nat.le_refl _
    · exact Nat.le_of_succ_le (ih hmem)

theorem withIds_snd_nodup (l : List Symbol) : ∀ i, ((withIds l i).map Prod.snd).Nodup := by
  induction l with
  | nil => intro i; exact List.nodup_nil
  | cons x rest ih =>
    intro i
    simp only [withIds, List.map_cons, List.nodup_cons]
    refine ⟨?_, ih (i + 1)⟩
    intro hmem
    rcases List.mem_map.mp hmem with ⟨⟨s, v⟩, hsv, hv⟩
    have := withIds_snd_lb hsv
    simp only at hv
    omega

theorem mem_of_dictGet {d : List (Symbol × Nat)} {s : Symbol} {v : Nat}
    (h : dictGet d s = some v) : (s, v) ∈ d := by
  induction d with
  | nil => cases h
  | cons e rest ih =>
    obtain ⟨k, v'⟩ := e
    by_cases hk : k = s
    · rw [dictGet, if_pos hk] at h
      rw [Option.some.injEq] at h
      rw [hk, h]
      exact List.mem_cons_self _ _
    · rw [dictGet, if_neg hk] at h
      exact List.mem_cons_of_mem _ (ih h)

theorem dictGet_of_mem_nodup {d : List (Symbol × Nat)} {s : Symbol} {v : Nat}
    (hnd : (d.map Prod.fst).Nodup) (h : (s, v) ∈ d) : dictGet d s = some v := by
  induction d with
  | nil => cases h
  | cons e rest ih =>
    obtain ⟨k, v'⟩ := e
    simp only [List.map_cons, List.nodup_cons] at hnd
    rcases List.mem_cons.mp h with heq | hmem
    · rw [Prod.mk.injEq] at heq
      rw [dictGet, if_pos heq.1.symm]
      exact congrArg some heq.2.symm
    · have hk : k ≠ s := by
        intro hks
        exact hnd.1 (hks ▸ List.mem_map.mpr ⟨(s, v), hmem, rfl⟩)
      rw [dictGet, if_neg hk]
      exact ih hnd.2 hmem

theorem mem_of_invGet {d : List (Nat × Symbol)} {j : Nat} {s : Symbol}
    (h : invGet d j = some s) : (j, s) ∈ d := by
  induction d with
  | nil => cases h
  | cons e rest ih =>
    obtain ⟨k, v'⟩ := e
    by_cases hk : k = j
    · rw [invGet, if_pos hk] at h
      rw [Option.some.injEq] at h
      rw [hk, h]
      exact List.mem_cons_self _ _
    · rw [invGet, if_neg hk] at h
      exact List.mem_cons_of_mem _ (ih h)

theorem invGet_of_mem_nodup {d : List (Nat × Symbol)} {j : Nat} {s : Symbol}
    (hnd : (d.map Prod.fst).Nodup) (h : (j, s) ∈ d) : invGet d j = some s := by
  induction d with
  | nil => cases h
  | cons e rest ih =>
    obtain ⟨k, v'⟩ := e
    simp only [List.map_cons, List.nodup_cons] at hnd
    rcases List.mem_cons.mp h with heq | hmem
    · rw [Prod.mk.injEq] at heq
      rw [invGet, if_pos heq.1.symm]
      exact congrArg some heq.2.symm
    · have hk : k ≠ j := by
        intro hkj
        exact hnd.1 (hkj ▸ List.mem_map.mpr ⟨(j, s), hmem, rfl⟩)
      rw [invGet, if_neg hk]
      exact ih hnd.2 hmem

theorem insertOver_of_fresh {d : List (Nat × Symbol)} {k : Nat} (v : Symbol)
    (h : k ∉ d.map Prod.fst) : insertOver d k v = d ++ [(k, v)] := by
  induction d with
  | nil => rfl
  | cons e rest ih =>
    obtain ⟨k', v'⟩ := e
    simp only [List.map_cons, List.mem_cons] at h
    push_neg at h
    rw [insertOver, if_neg (fun he => h.1 he.symm), List.cons_append]
    rw [ih h.2]

theorem mem_insertOver {d : List (Nat × Symbol)} {k k' : Nat} {v v' : Symbol}
    (h : (k', v') ∈ insertOver d k v) : (k' = k ∧ v' = v) ∨ (k', v') ∈ d := by
  induction d with
  | nil =>
    simp only [insertOver, List.mem_singleton] at h
    rw [Prod.mk.injEq] at h
    exact Or.inl h
  | cons e rest ih =>
    obtain ⟨k₀, v₀⟩ := e
    by_cases hk : k₀ = k
    · rw [insertOver, if_pos hk, List.mem_cons] at h
      rcases h with heq | hmem
      · rw [Prod.mk.injEq] at heq
        exact Or.inl heq
      · exact Or.inr (List.mem_cons_of_mem _ hmem)
    · rw [insertOver, if_neg hk, List.mem_cons] at h
      rcases h with heq | hmem
      · exact Or.inr (heq ▸ List.mem_cons_self _ _)
      · rcases ih hmem with h' | h'
        · exact Or.inl h'
        · exact Or.inr (List.mem_cons_of_mem _ h')

theorem invVocab_eq_map_swap (d : List (Symbol × Nat)) (hids : (d.map Prod.snd).Nodup) :
    invVocab d = d.map (fun e => (e.2, e.1)) := by
  have main : ∀ (es : List (Symbol × Nat)) (acc : List (Nat × Symbol)),
      (es.map Prod.snd).Nodup →
      (∀ j, j ∈ acc.map Prod.fst → j ∉ es.map Prod.snd) →
      es.foldl (fun d e => insertOver d e.2 e.1) acc = acc ++ es.map (fun e => (e.2, e.1)) := by
    intro es
    induction es with
    | nil => intro acc _ _; simp
    | cons e rest ih =>
      intro acc hnd hdisj
      simp only [List.map_cons, List.nodup_cons] at hnd
      simp only [List.foldl_cons]
      have hfresh : e.2 ∉ acc.map Prod.fst := by
        intro hmem
        exact hdisj e.2 hmem (by simp)
      rw [insertOver_of_fresh e.1 hfresh]
      rw [ih (acc ++ [(e.2, e.1)]) hnd.2 ?_]
      · simp
      · intro j hj
        simp only [List.map_append, List.mem_append, List.map_cons, List.mem_singleton] at hj
        rcases hj with hj | hj
        · intro hr
          exact hdisj j hj (List.mem_cons_of_mem _ hr)
        · simp only [List.map_nil, List.mem_cons, List.not_mem_nil, or_false] at hj
          rw [hj]
          exact hnd.1
  simpa using main d [] hids (by simp)

theorem mem_invVocab_orig {d : List (Symbol × Nat)} {j : Nat} {s : Symbol}
    (h : (j, s) ∈ invVocab d) : (s, j) ∈ d := by
  have main : ∀ (es : List (Symbol × Nat)) (acc : List (Nat × Symbol)) (j : Nat) (s : Symbol),
      (j, s) ∈ es.foldl (fun d e => insertOver d e.2 e.1) acc →
      (j, s) ∈ acc ∨ (s, j) ∈ es := by
    intro es
    induction es with
    | nil => exact fun acc j s h => Or.inl h
    | cons e rest ih =>
      intro acc j s h
      simp only [List.foldl_cons] at h
      rcases ih _ j s h with hacc | hmem
      · rcases mem_insertOver hacc with ⟨rfl, rfl⟩ | hacc'
        · exact Or.inr (by simp)
        · exact Or.inl hacc'
      · exact Or.inr (List.mem_cons_of_mem _ hmem)
  rcases main d [] j s h with hacc | hmem
  · cases hacc
  · exact hmem

/-! ### Sorting lemmas -/

theorem sortSymbols_perm (l : List Symbol) : List.Perm (sortSymbols l) l :=
  List.perm_insertionSort _ l

theorem mem_sortSymbols {l : List Symbol} {s : Symbol} : s ∈ sortSymbols l ↔ s ∈ l :=
  (sortSymbols_perm l).mem_iff

theorem sortSymbols_nodup {l : List Symbol} (h : l.Nodup) : (sortSymbols l).Nodup :=
  ((sortSymbols_perm l).nodup_iff).mpr h

theorem sortSymbols_sorted (l : List Symbol) : List.Sorted (· ≤ ·) (sortSymbols l) :=
  List.sorted_insertionSort _ l

theorem sortSymbols_length (l : List Symbol) : (sortSymbols l).length = l.length :=
  (sortSymbols_perm l).length_eq

/-! ### `train` unfolding -/

theorem train_eq_of_pre (tok : BPETokenizer) (corpus : List (List Char)) {n : Nat}
    (h2 : 2 ≤ n) (hne : buildWordFreqs corpus ≠ []) :
    train tok corpus n =
      ({ tok with
          merges := (trainedState tok corpus n).merges,
          vocab := trainedVocab tok corpus n }, none) := by
  rw [train, if_neg (Nat.not_lt.mpr h2)]
  simp only [if_neg hne]
  rfl

theorem dictGet_withIds_get {l : List Symbol} (h : l.Nodup) :
    ∀ (i j : Nat) (hj : j < l.length),
      dictGet (withIds l i) (l.get ⟨j, hj⟩) = some (i + j) := by
  induction l with
  | nil => intro i j hj; cases hj
  | cons x rest ih =>
    intro i j hj
    rw [List.nodup_cons] at h
    cases j with
    | zero => simp [withIds, dictGet]
    | succ j =>
      have hget : (x :: rest).get ⟨j + 1, hj⟩ = rest.get ⟨j, Nat.lt_of_succ_lt_succ hj⟩ := rfl
      rw [hget]
      have hx : x ≠ rest.get ⟨j, Nat.lt_of_succ_lt_succ hj⟩ := by
        intro he
        exact h.1 (he ▸ rest.get_mem _ _)
      simp only [withIds, dictGet, if_neg hx]
      rw [ih h.2 (i + 1) j (Nat.lt_of_succ_lt_succ hj)]
      congr 1
      omega

theorem train_success_inv {tok : BPETokenizer} {corpus : List (List Char)} {n : Nat}
    {tok' : BPETokenizer} (h : train tok corpus n = (tok', none)) :
    2 ≤ n ∧ buildWordFreqs corpus ≠ [] ∧
      tok'.unkToken = tok.unkToken ∧
      tok'.merges = (trainedState tok corpus n).merges ∧
      tok'.vocab = trainedVocab tok corpus n := by
  by_cases h2 : n < 2
  · rw [train, if_pos h2] at h
    rw [Prod.mk.injEq] at h
    cases h.2
  · by_cases hw : buildWordFreqs corpus = []
    · rw [train, if_neg h2] at h
      simp only [hw, if_pos rfl] at h
      rw [Prod.mk.injEq] at h
      cases h.2
    · rw [train_eq_of_pre tok corpus (Nat.le_of_not_lt h2) hw] at h
      rw [Prod.mk.injEq] at h
      refine ⟨Nat.le_of_not_lt h2, hw, ?_, ?_, ?_⟩ <;> rw [← h.1]

theorem trainedState_symbols_nodup (tok : BPETokenizer) (corpus : List (List Char))
    (n : Nat) : (trainedState tok corpus n).symbols.Nodup :=
  trainLoop_symbols_nodup n _ _ (initSymbols_nodup _ _)

theorem unk_mem_trainedState (tok : BPETokenizer) (corpus : List (List Char)) (n : Nat) :
    tok.unkToken ∈ (trainedState tok corpus n).symbols :=
  trainLoop_symbols_mono n _ _ _ (unk_mem_initSymbols _ _)

theorem mapM_lookupId_total {vocab : List (Symbol × Nat)} {unk : Symbol} {u : Nat}
    (hu : dictGet vocab unk = some u) :
    ∀ l : List Symbol,
      l.mapM (lookupId vocab unk) = some (l.map (fun s => (dictGet vocab s).getD u)) := by
  intro l
  induction l with
  | nil => rfl
  | cons s rest ih =>
    rw [List.mapM_cons, List.map_cons]
    rw [show lookupId vocab unk s = some ((dictGet vocab s).getD u) from by
      rw [lookupId, hu]]
    rw [ih]
    rfl

theorem count_getD_ge (vocab : List (Symbol × Nat)) (l : List Symbol) :
    ((l.filter (fun s => dictGet vocab s = none)).length ≤
      (l.map (fun s => (dictGet vocab s).getD 0)).count 0) := by
  induction l with
  | nil => simp
  | cons s rest ih =>
    simp only [List.map_cons]
    cases hs : dictGet vocab s with
    | none =>
      rw [List.filter_cons_of_pos (by simp [hs])]
      simp only [Option.getD_none, List.length_cons]
      rw [List.count_cons_self]
      exact Nat.succ_le_succ ih
    | some v =>
      rw [List.filter_cons_of_neg (by simp [hs])]
      calc (rest.filter (fun s => dictGet vocab s = none)).length
          ≤ (rest.map (fun s => (dictGet vocab s).getD 0)).count 0 := ih
        _ ≤ ((some v).getD 0 :: rest.map (fun s => (dictGet vocab s).getD 0)).count 0 :=
            List.count_le_count_cons _ _ _

theorem filter_ne_length_lt {l : List Symbol} {u : Symbol} (h : u ∈ l) :
    (l.filter (fun s => s ≠ u)).length < l.length := by
  induction l with
  | nil => cases h
  | cons x xs ih =>
    by_cases hx : x = u
    · rw [List.filter_cons_of_neg (by simp [hx])]
      exact Nat.lt_succ_of_le (List.length_filter_le _ _)
    · have hu : u ∈ xs := by
        rcases List.mem_cons.mp h with rfl | h'
        · exact absurd rfl hx
        · exact h'
      rw [List.filter_cons_of_pos (by simp [hx])]
      exact Nat.succ_lt_succ (ih hu)

/-! ### Claim theorems -/

/-- C4: `train` fails with an InvalidArgument error if and only if
`target_vocab_size < 2`, fails with an EmptyInput error if and only if
`target_vocab_size >= 2` and the corpus yields no non-empty word after
whitespace splitting, and succeeds for all other inputs. -/
theorem claim_C4 (tok : BPETokenizer) (corpus : List (List Char)) (n : Nat) :
    ((train tok corpus n).2 = some TrainError.invalidArgument ↔ n < 2) ∧
    ((train tok corpus n).2 = some TrainError.emptyInput ↔
      2 ≤ n ∧ ∀ line ∈ corpus, splitToWords line = []) ∧
    ((train tok corpus n).2 = none ↔
      2 ≤ n ∧ ¬ ∀ line ∈ corpus, splitToWords line = []) := by
  by_cases h2 : n < 2
  · have ht : train tok corpus n = (tok, some TrainError.invalidArgument) := by
      rw [train, if_pos h2]
    rw [ht]
    refine ⟨⟨fun _ => h2, fun _ => rfl⟩, ?_, ?_⟩
    · exact ⟨fun h => by simp at h, fun hc => absurd hc.1 (by omega)⟩
    · exact ⟨fun h => by simp at h, fun hc => absurd hc.1 (by omega)⟩
  · by_cases hw : buildWordFreqs corpus = []
    · have ht : train tok corpus n = (tok, some TrainError.emptyInput) := by
        rw [train, if_neg h2]
        simp [hw]
      rw [ht]
      refine ⟨?_, ?_, ?_⟩
      · exact ⟨fun h => by simp at h, fun hlt => absurd hlt h2⟩
      · exact ⟨fun _ => ⟨Nat.le_of_not_lt h2, (buildWordFreqs_eq_nil_iff corpus).mp hw⟩,
          fun _ => rfl⟩
      · exact ⟨fun h => by simp at h,
          fun hc => absurd ((buildWordFreqs_eq_nil_iff corpus).mp hw) hc.2⟩
    · rw [train_eq_of_pre tok corpus (Nat.le_of_not_lt h2) hw]
      refine ⟨?_, ?_, ?_⟩
      · exact ⟨fun h => by simp at h, fun hlt => absurd hlt h2⟩
      · exact ⟨fun h => by simp at h,
          fun hc => absurd ((buildWordFreqs_eq_nil_iff corpus).mpr hc.2) hw⟩
      · exact ⟨fun _ => ⟨Nat.le_of_not_lt h2,
          fun hall => hw ((buildWordFreqs_eq_nil_iff corpus).mpr hall)⟩, fun _ => rfl⟩

/-- C10: `train` is atomic on failure: whenever it reports an error,
the tokenizer state (in particular its merge list and vocabulary) is
returned unchanged — both raise sites in the source precede every
mutation of `self`. -/
theorem claim_C10 (tok : BPETokenizer) (corpus : List (List Char)) (n : Nat)
    (err : TrainError) (h : (train tok corpus n).2 = some err) :
    (train tok corpus n).1 = tok := by
  by_cases h2 : n < 2
  · rw [train, if_pos h2]
  · by_cases hw : buildWordFreqs corpus = []
    · have ht : train tok corpus n = (tok, some TrainError.emptyInput) := by
        rw [train, if_neg h2]
        simp [hw]
      rw [ht]
    · rw [train_eq_of_pre tok corpus (Nat.le_of_not_lt h2) hw] at h
      cases h

/-- C10 witness: training on an empty corpus fails and leaves a fresh
tokenizer untouched. -/
theorem claim_C10_witness : (train ({} : BPETokenizer) [] 5).1 = ({} : BPETokenizer) :=
  claim_C10 {} [] 5 TrainError.emptyInput rfl

/-- C7: a pair is counted in the pair statistics only if neither
element is the end-of-word marker, and consequently every pair in the
merge list of a successfully trained tokenizer has both elements
different from the marker. -/
theorem claim_C7 :
    (∀ (wf : WordFreqs) (q : Pair) (c : Nat),
      (q, c) ∈ getStats wf → q.1 ≠ endOfWord ∧ q.2 ≠ endOfWord) ∧
    (∀ (tok : BPETokenizer) (corpus : List (List Char)) (n : Nat) (tok' : BPETokenizer),
      train tok corpus n = (tok', none) →
      ∀ p ∈ tok'.merges, p.1 ≠ endOfWord ∧ p.2 ≠ endOfWord) := by
  constructor
  · exact fun wf q c h => (mem_getStats h).2
  · intro tok corpus n tok' h p hp
    obtain ⟨-, -, -, hm, -⟩ := train_success_inv h
    rw [hm] at hp
    exact trainLoop_merges_no_marker n _ _ (by intro q hq; cases hq) p hp

/-- C7 witness: a concrete trained merge list, with its first merge
checked against the marker-freeness property. -/
theorem claim_C7_witness :
    ((['▁'], ['a']) : Pair).1 ≠ endOfWord ∧ ((['▁'], ['a']) : Pair).2 ≠ endOfWord :=
  claim_C7.2 {} [['a', 'b']] 6 (train {} [['a', 'b']] 6).1 rfl (['▁'], ['a']) (by decide)

/-- C8: under the preconditions, training succeeds and the merge loop
provably stops — with the fuel `train` uses, the loop reports a normal
stop, which happens either because the symbol set reached
`target_vocab_size` or because the pair statistics became empty. -/
theorem claim_C8 (tok : BPETokenizer) (corpus : List (List Char)) (n : Nat)
    (h2 : 2 ≤ n) (hne : buildWordFreqs corpus ≠ []) :
    (train tok corpus n).2 = none ∧
    (trainLoop n (totalLen (buildWordFreqs corpus) + 1)
      { symbols := initSymbols tok.unkToken (buildWordFreqs corpus)
        merges := []
        wordFreqs := buildWordFreqs corpus }).2 = true ∧
    (n ≤ (trainedState tok corpus n).symbols.length ∨
      getStats (trainedState tok corpus n).wordFreqs = []) := by
  have hfuel : totalLen (buildWordFreqs corpus) < totalLen (buildWordFreqs corpus) + 1 :=
    Nat.lt_succ_self _
  have hdone := trainLoop_done n (totalLen (buildWordFreqs corpus) + 1)
    { symbols := initSymbols tok.unkToken (buildWordFreqs corpus)
      merges := []
      wordFreqs := buildWordFreqs corpus } hfuel
  refine ⟨?_, hdone.1, hdone.2⟩
  rw [train_eq_of_pre tok corpus h2 hne]

/-- C8 witness: concrete training run on a one-line corpus. -/
theorem claim_C8_witness :
    (train ({} : BPETokenizer) [['a', 'b']] 2).2 = none ∧
    (trainLoop 2 (totalLen (buildWordFreqs [['a', 'b']]) + 1)
      { symbols := initSymbols ({} : BPETokenizer).unkToken (buildWordFreqs [['a', 'b']])
        merges := []
        wordFreqs := buildWordFreqs [['a', 'b']] }).2 = true ∧
    (2 ≤ (trainedState ({} : BPETokenizer) [['a', 'b']] 2).symbols.length ∨
      getStats (trainedState ({} : BPETokenizer) [['a', 'b']] 2).wordFreqs = []) :=
  claim_C8 {} [['a', 'b']] 2 (by decide) (by decide)

/-- C5: `encode` and `decode` fail with NotTrained exactly on an empty
vocabulary (the untrained state), and never fail after a successful
`train`. -/
theorem claim_C5 :
    (∀ (tok : BPETokenizer) (text : List Char), tok.vocab = [] →
      encode tok text = .error CodecError.notTrained) ∧
    (∀ (tok : BPETokenizer) (ids : List Nat), tok.vocab = [] →
      decode tok ids = .error CodecError.notTrained) ∧
    (∀ (tok : BPETokenizer) (corpus : List (List Char)) (n : Nat) (tok' : BPETokenizer),
      train tok corpus n = (tok', none) →
      (∀ text : List Char, ∃ ids, encode tok' text = .ok ids) ∧
      (∀ ids : List Nat, ∃ s, decode tok' ids = .ok s)) := by
  refine ⟨?_, ?_, ?_⟩
  · intro tok text h
    rw [encode, if_pos h]
  · intro tok ids h
    rw [decode, if_pos h]
  · intro tok corpus n tok' h
    obtain ⟨-, -, hu, -, hv⟩ := train_success_inv h
    have hvne : tok'.vocab ≠ [] := by
      rw [hv, trainedVocab]
      simp [withIds]
    have hunk : dictGet tok'.vocab tok'.unkToken = some 0 := by
      rw [hv, hu, trainedVocab]
      exact dictGet_withIds_head _ _ _
    constructor
    · intro text
      refine ⟨(encodeCleanSymbols tok'.merges text).map
        (fun s => (dictGet tok'.vocab s).getD 0), ?_⟩
      rw [encode, if_neg hvne, mapM_lookupId_total hunk]
    · intro ids
      refine ⟨stripChars ((ids.map
        (fun i => (invGet (invVocab tok'.vocab) i).getD tok'.unkToken)).flatten.map
          replaceStart), ?_⟩
      rw [decode, if_neg hvne]

/-- C5 witness: fresh tokenizer fails on both directions; a trained one
encodes without error. -/
theorem claim_C5_witness :
    encode ({} : BPETokenizer) ['h'] = .error CodecError.notTrained ∧
    decode ({} : BPETokenizer) [0] = .error CodecError.notTrained ∧
    ∃ ids, encode (train ({} : BPETokenizer) [['a', 'b']] 2).1 ['a'] = .ok ids :=
  ⟨claim_C5.1 {} ['h'] rfl, claim_C5.2.1 {} [0] rfl,
    (claim_C5.2.2 {} [['a', 'b']] 2 (train ({} : BPETokenizer) [['a', 'b']] 2).1 rfl).1 ['a']⟩

/-- C2 counterexample: with `vocab_size = 2` the claim allows at most
the unknown token plus one other symbol (never more), but training on
the corpus `["ab"]` succeeds and produces a vocabulary of 4 entries
(`<unk>`, `a`, `b`, `▁`): the initial single-character symbols already
exceed the target and are all kept. -/
theorem claim_C2_counter :
    (train ({} : BPETokenizer) [['a', 'b']] 2).2 = none ∧
    (train ({} : BPETokenizer) [['a', 'b']] 2).1.vocab.length = 4 :=
  ⟨rfl, rfl⟩

/-- C2 (amended): under the preconditions — and provided the unknown
token is not a single-character symbol, as with the default `<unk>` —
`train` succeeds and its vocabulary holds the unknown token plus at
least one other symbol, and at most `max vocab_size I` entries in
total, where `I` is the number of distinct initial symbols (unknown
token plus single-character symbols); the claimed `vocab_size` bound
alone fails because the initial symbols can already exceed it. -/
theorem claim_C2 (tok : BPETokenizer) (corpus : List (List Char)) (n : Nat)
    (h2 : 2 ≤ n) (hne : buildWordFreqs corpus ≠ []) (hunk : tok.unkToken.length ≠ 1) :
    (train tok corpus n).2 = none ∧
    2 ≤ (train tok corpus n).1.vocab.length ∧
    (train tok corpus n).1.vocab.length ≤
      max n (initSymbols tok.unkToken (buildWordFreqs corpus)).length := by
  have ht := train_eq_of_pre tok corpus h2 hne
  have hv : (train tok corpus n).1.vocab = trainedVocab tok corpus n := by rw [ht]
  have hlen : (train tok corpus n).1.vocab.length =
      1 + ((trainedState tok corpus n).symbols.filter
        (fun s => s ≠ tok.unkToken)).length := by
    rw [hv, trainedVocab, length_withIds, List.length_cons, sortSymbols_length,
      Nat.add_comm]
  have hmono : ∀ s ∈ initSymbols tok.unkToken (buildWordFreqs corpus),
      s ∈ (trainedState tok corpus n).symbols := by
    intro s hs
    exact trainLoop_symbols_mono n _ _ s hs
  constructor
  · rw [ht]
  constructor
  · -- the word-start symbol survives and differs from the unknown token
    obtain ⟨e, rest, hwf⟩ : ∃ e rest, buildWordFreqs corpus = e :: rest := by
      cases hcase : buildWordFreqs corpus with
      | nil => exact absurd hcase hne
      | cons e rest => exact ⟨e, rest, rfl⟩
    have hmem_e : (e.1, e.2) ∈ buildWordFreqs corpus := by
      rw [hwf]
      exact List.mem_cons_self e rest
    obtain ⟨v, hv'⟩ : ∃ v, e.1 = wordSymbols v := mem_buildWordFreqs_shape hmem_e
    have hws : ([wordStart] : Symbol) ∈ e.1 := by
      rw [hv', wordSymbols]
      exact List.mem_append_left _ (List.mem_map.mpr ⟨wordStart, List.mem_cons_self _ _, rfl⟩)
    have hws_init : ([wordStart] : Symbol) ∈
        initSymbols tok.unkToken (buildWordFreqs corpus) :=
      mem_initSymbols_of_mem tok.unkToken hmem_e hws (by decide)
    have hws_ne : ([wordStart] : Symbol) ≠ tok.unkToken := by
      intro he
      refine hunk ?_
      rw [← he]
      decide
    have hmem_filter : ([wordStart] : Symbol) ∈
        (trainedState tok corpus n).symbols.filter (fun s => s ≠ tok.unkToken) := by
      rw [List.mem_filter]
      exact ⟨hmono _ hws_init, by simpa using hws_ne⟩
    rw [hlen]
    have : 1 ≤ ((trainedState tok corpus n).symbols.filter
        (fun s => s ≠ tok.unkToken)).length :=
      List.length_pos.mpr (List.ne_nil_of_mem hmem_filter)
    omega
  · rw [hlen]
    have hfil : ((trainedState tok corpus n).symbols.filter
        (fun s => s ≠ tok.unkToken)).length < (trainedState tok corpus n).symbols.length :=
      filter_ne_length_lt (unk_mem_trainedState tok corpus n)
    have hle : (trainedState tok corpus n).symbols.length ≤
        max n (initSymbols tok.unkToken (buildWordFreqs corpus)).length :=
      trainLoop_symbols_le n _ _
    omega

/-- C2 witness: concrete run satisfying all amended hypotheses. -/
theorem claim_C2_witness :
    (train ({} : BPETokenizer) [['a', 'b']] 2).2 = none ∧
    2 ≤ (train ({} : BPETokenizer) [['a', 'b']] 2).1.vocab.length ∧
    (train ({} : BPETokenizer) [['a', 'b']] 2).1.vocab.length ≤
      max 2 (initSymbols ({} : BPETokenizer).unkToken (buildWordFreqs [['a', 'b']])).length :=
  claim_C2 {} [['a', 'b']] 2 (by decide) (by decide) (by decide)

/-- C6: applying one merge is a single left-to-right, non-overlapping,
greedy pass — on a match the scan replaces the two symbols by their
concatenation and advances past both, otherwise it advances by one,
with no fixed-point repetition — and the very same pass is what
training-time `_merge_vocab` applies to every word of the frequency
table. -/
theorem claim_C6 :
    (∀ (p : Pair) (a b : Symbol) (rest : List Symbol), a = p.1 ∧ b = p.2 →
      applyMerge (a :: b :: rest) p = (p.1 ++ p.2) :: applyMerge rest p) ∧
    (∀ (p : Pair) (a b : Symbol) (rest : List Symbol), ¬(a = p.1 ∧ b = p.2) →
      applyMerge (a :: b :: rest) p = a :: applyMerge (b :: rest) p) ∧
    (∀ (p : Pair) (s : Symbol), applyMerge [s] p = [s]) ∧
    (∀ p : Pair, applyMerge [] p = []) ∧
    (∀ (p : Pair) (w : Word), mergeWord p w = applyMerge w p) ∧
    (∀ (p : Pair) (wf : WordFreqs),
      mergeVocab p wf = wf.foldl (fun acc e => insertAdd acc (applyMerge e.1 p) e.2) []) := by
  refine ⟨?_, ?_, fun p s => rfl, fun p => rfl, mergeWord_eq_applyMerge, ?_⟩
  · intro p a b rest h
    show (if a = p.1 ∧ b = p.2 then (p.1 ++ p.2) :: applyMerge rest p
        else a :: applyMerge (b :: rest) p) = (p.1 ++ p.2) :: applyMerge rest p
    rw [if_pos h]
  · intro p a b rest h
    show (if a = p.1 ∧ b = p.2 then (p.1 ++ p.2) :: applyMerge rest p
        else a :: applyMerge (b :: rest) p) = a :: applyMerge (b :: rest) p
    rw [if_neg h]
  · intro p wf
    rw [mergeVocab]
    simp only [mergeWord_eq_applyMerge]

/-- C6 witness: one matching and one mismatching step of the scan. -/
theorem claim_C6_witness :
    applyMerge [['a'], ['b']] (['a'], ['b']) =
      ((['a'], ['b']).1 ++ (['a'], ['b']).2) :: applyMerge [] (['a'], ['b']) ∧
    applyMerge [['x'], ['b']] (['a'], ['b']) =
      ['x'] :: applyMerge [['b']] (['a'], ['b']) :=
  ⟨claim_C6.1 (['a'], ['b']) ['a'] ['b'] [] ⟨rfl, rfl⟩,
    claim_C6.2.1 (['a'], ['b']) ['x'] ['b'] [] (by decide)⟩

/-- C9: unknown symbols and ids are not errors — for a trained
tokenizer, `decode` maps any id outside the vocabulary to the unknown
token's text, and `encode` substitutes the unknown-token id (which is
0 after training) at least once per unrecognized post-merge symbol. -/
theorem claim_C9 :
    (∀ (tok : BPETokenizer) (i : Nat), tok.vocab ≠ [] →
      (∀ e ∈ tok.vocab, e.2 ≠ i) →
      decode tok [i] = .ok (stripChars (tok.unkToken.map replaceStart))) ∧
    (∀ (tok : BPETokenizer) (corpus : List (List Char)) (n : Nat) (tok' : BPETokenizer),
      train tok corpus n = (tok', none) →
      ∀ text : List Char,
        ∃ ids, encode tok' text = .ok ids ∧
          dictGet tok'.vocab tok'.unkToken = some 0 ∧
          ((encodeCleanSymbols tok'.merges text).filter
            (fun s => dictGet tok'.vocab s = none)).length ≤ ids.count 0) := by
  constructor
  · intro tok i hv hnone
    rw [decode, if_neg hv]
    have hget : invGet (invVocab tok.vocab) i = none := by
      cases hg : invGet (invVocab tok.vocab) i with
      | none => rfl
      | some s =>
        have hmem := mem_invVocab_orig (mem_of_invGet hg)
        exact absurd rfl (hnone (s, i) hmem)
    simp [hget]
  · intro tok corpus n tok' h text
    obtain ⟨-, -, hu, -, hv⟩ := train_success_inv h
    have hvne : tok'.vocab ≠ [] := by
      rw [hv, trainedVocab]
      simp [withIds]
    have hunk : dictGet tok'.vocab tok'.unkToken = some 0 := by
      rw [hv, hu, trainedVocab]
      exact dictGet_withIds_head _ _ _
    refine ⟨(encodeCleanSymbols tok'.merges text).map
      (fun s => (dictGet tok'.vocab s).getD 0), ?_, hunk, ?_⟩
    · rw [encode, if_neg hvne, mapM_lookupId_total hunk]
    · exact count_getD_ge tok'.vocab (encodeCleanSymbols tok'.merges text)

/-- C9 witness: decoding an out-of-range id yields `<unk>`; encoding a
never-seen character yields the unknown id at least once. -/
theorem claim_C9_witness :
    decode (train ({} : BPETokenizer) [['a', 'b']] 2).1 [999] =
      .ok (stripChars ((train ({} : BPETokenizer) [['a', 'b']] 2).1.unkToken.map
        replaceStart)) ∧
    ∃ ids, encode (train ({} : BPETokenizer) [['a', 'b']] 2).1 ['c'] = .ok ids ∧
      dictGet (train ({} : BPETokenizer) [['a', 'b']] 2).1.vocab
        (train ({} : BPETokenizer) [['a', 'b']] 2).1.unkToken = some 0 ∧
      ((encodeCleanSymbols (train ({} : BPETokenizer) [['a', 'b']] 2).1.merges ['c']).filter
        (fun s => dictGet (train ({} : BPETokenizer) [['a', 'b']] 2).1.vocab s = none)).length ≤
        ids.count 0 :=
  ⟨claim_C9.1 (train ({} : BPETokenizer) [['a', 'b']] 2).1 999 (by decide) (by decide),
    claim_C9.2 {} [['a', 'b']] 2 (train ({} : BPETokenizer) [['a', 'b']] 2).1 rfl ['c']⟩

/-- C3 counterexample: the claim excludes the end-of-word marker from
the id assignment, but a merged concatenation equal to the marker
string `</w>` can survive training and receive an id.  On the corpus
`["a</w> b</w>"]` (containing the literal characters `<`, `/`, `w`,
`>`) with `vocab_size = 11`, training merges `<`+`/`, `</`+`w` and
`</w`+`>`, so the string `</w>` is a surviving symbol and is assigned
id 5 in the produced vocabulary. -/
theorem claim_C3_counter :
    (train ({} : BPETokenizer) [['a', '<', '/', 'w', '>', ' ', 'b', '<', '/', 'w', '>']] 11).2 =
      none ∧
    dictGet (train ({} : BPETokenizer)
      [['a', '<', '/', 'w', '>', ' ', 'b', '<', '/', 'w', '>']] 11).1.vocab endOfWord =
      some 5 :=
  ⟨rfl, rfl⟩

/-- C3 (amended): for every successful `train` call the produced
vocabulary assigns id 0 to the unknown token, and every other
surviving symbol — including, in the corner case, a merged
concatenation equal to the end-of-word marker string — receives ids
1, 2, 3, … by lexicographic sorting and sequential numbering. -/
theorem claim_C3 (tok : BPETokenizer) (corpus : List (List Char)) (n : Nat)
    (tok' : BPETokenizer) (h : train tok corpus n = (tok', none)) :
    ∃ others : List Symbol,
      tok'.vocab = withIds (tok.unkToken :: others) 0 ∧
      dictGet tok'.vocab tok.unkToken = some 0 ∧
      List.Sorted (· ≤ ·) others ∧
      others.Nodup ∧
      (∀ s, s ∈ others ↔ s ∈ (trainedState tok corpus n).symbols ∧ s ≠ tok.unkToken) ∧
      (∀ (j : Nat) (hj : j < others.length),
        dictGet tok'.vocab (others.get ⟨j, hj⟩) = some (j + 1)) := by
  obtain ⟨-, -, -, -, hv⟩ := train_success_inv h
  refine ⟨sortSymbols ((trainedState tok corpus n).symbols.filter
    (fun s => s ≠ tok.unkToken)), ?_, ?_, sortSymbols_sorted _, ?_, ?_, ?_⟩
  · rw [hv, trainedVocab]
  · rw [hv, trainedVocab]
    exact dictGet_withIds_head _ _ _
  · exact sortSymbols_nodup (List.Nodup.filter _ (trainedState_symbols_nodup tok corpus n))
  · intro s
    rw [mem_sortSymbols, List.mem_filter]
    simp
  · intro j hj
    have hnotmem : tok.unkToken ∉ sortSymbols ((trainedState tok corpus n).symbols.filter
        (fun s => s ≠ tok.unkToken)) := by
      rw [mem_sortSymbols, List.mem_filter]
      simp
    have hnod : (tok.unkToken :: sortSymbols ((trainedState tok corpus n).symbols.filter
        (fun s => s ≠ tok.unkToken))).Nodup :=
      List.nodup_cons.mpr ⟨hnotmem,
        sortSymbols_nodup (List.Nodup.filter _ (trainedState_symbols_nodup tok corpus n))⟩
    have hall := dictGet_withIds_get hnod 0 (j + 1) (by simpa using Nat.succ_lt_succ hj)
    rw [hv, trainedVocab]
    simpa using hall

/-- C3 witness: concrete instantiation of the amended id-assignment
description. -/
theorem claim_C3_witness :
    ∃ others : List Symbol,
      (train ({} : BPETokenizer) [['a', 'b']] 2).1.vocab =
        withIds (({} : BPETokenizer).unkToken :: others) 0 ∧
      dictGet (train ({} : BPETokenizer) [['a', 'b']] 2).1.vocab
        ({} : BPETokenizer).unkToken = some 0 ∧
      List.Sorted (· ≤ ·) others ∧
      others.Nodup ∧
      (∀ s, s ∈ others ↔
        s ∈ (trainedState ({} : BPETokenizer) [['a', 'b']] 2).symbols ∧
          s ≠ ({} : BPETokenizer).unkToken) ∧
      (∀ (j : Nat) (hj : j < others.length),
        dictGet (train ({} : BPETokenizer) [['a', 'b']] 2).1.vocab
          (others.get ⟨j, hj⟩) = some (j + 1)) :=
  claim_C3 {} [['a', 'b']] 2 (train ({} : BPETokenizer) [['a', 'b']] 2).1 rfl

/-! ### Round-trip machinery -/

theorem map_eq_self_of {α : Type} {l : List α} {f : α → α} (h : ∀ x ∈ l, f x = x) :
    l.map f = l :=
  (List.map_congr_left h).trans (List.map_id l)

theorem applyMerge_tail (p : Pair) (hp : p.2 ≠ endOfWord) :
    ∀ l : List Symbol, ∃ l', applyMerge (l ++ [endOfWord]) p = l' ++ [endOfWord]
  | [] => ⟨[], rfl⟩
  | [a] => by
    have hne : ¬(a = p.1 ∧ endOfWord = p.2) := fun hh => hp hh.2.symm
    refine ⟨[a], ?_⟩
    show (if a = p.1 ∧ endOfWord = p.2 then (p.1 ++ p.2) :: applyMerge [] p
        else a :: applyMerge [endOfWord] p) = [a] ++ [endOfWord]
    rw [if_neg hne]
    rfl
  | a :: b :: rest => by
    by_cases hab : a = p.1 ∧ b = p.2
    · obtain ⟨l', hl'⟩ := applyMerge_tail p hp rest
      refine ⟨(p.1 ++ p.2) :: l', ?_⟩
      show (if a = p.1 ∧ b = p.2 then (p.1 ++ p.2) :: applyMerge (rest ++ [endOfWord]) p
          else a :: applyMerge (b :: (rest ++ [endOfWord])) p) =
        ((p.1 ++ p.2) :: l') ++ [endOfWord]
      rw [if_pos hab, hl']
      rfl
    · obtain ⟨l', hl'⟩ := applyMerge_tail p hp (b :: rest)
      refine ⟨a :: l', ?_⟩
      show (if a = p.1 ∧ b = p.2 then (p.1 ++ p.2) :: applyMerge (rest ++ [endOfWord]) p
          else a :: applyMerge (b :: (rest ++ [endOfWord])) p) =
        (a :: l') ++ [endOfWord]
      rw [if_neg hab]
      rw [show b :: (rest ++ [endOfWord]) = (b :: rest) ++ [endOfWord] from rfl, hl']
      rfl

theorem foldl_applyMerge_tail (ms : List Pair) (hm : ∀ p ∈ ms, p.2 ≠ endOfWord) :
    ∀ l : List Symbol,
      ∃ body, ms.foldl (fun syms p => applyMerge syms p) (l ++ [endOfWord]) =
        body ++ [endOfWord] := by
  induction ms with
  | nil => exact fun l => ⟨l, rfl⟩
  | cons p ps ih =>
    intro l
    simp only [List.foldl_cons]
    obtain ⟨l₂, hl₂⟩ := applyMerge_tail p (hm p (List.mem_cons_self _ _)) l
    rw [hl₂]
    exact ih (fun q hq => hm q (List.mem_cons_of_mem _ hq)) l₂

theorem applyMerges_tail (merges : List Pair) (hm : ∀ p ∈ merges, p.2 ≠ endOfWord)
    (w : List Char) :
    ∃ body, applyMerges merges w = body ++ [endOfWord] :=
  foldl_applyMerge_tail merges hm ((wordStart :: w).map (fun c => [c]))

theorem flatten_singletons : ∀ l : List Char, ((l.map (fun c => [c])).flatten) = l
  | [] => rfl
  | c :: rest => by
    simp only [List.map_cons, List.flatten_cons, flatten_singletons rest]
    rfl

theorem foldl_applyMerge_flatten (ms : List Pair) :
    ∀ acc : List Symbol, ((ms.foldl (fun syms p => applyMerge syms p) acc)).flatten =
      acc.flatten := by
  induction ms with
  | nil => exact fun acc => rfl
  | cons p ps ih =>
    intro acc
    simp only [List.foldl_cons]
    rw [ih (applyMerge acc p), applyMerge_flatten]

theorem applyMerges_flatten (merges : List Pair) (w : List Char) :
    (applyMerges merges w).flatten = (wordStart :: w) ++ endOfWord := by
  rw [applyMerges, foldl_applyMerge_flatten, wordSymbols, List.flatten_append,
    flatten_singletons]
  simp

theorem withIds_roundtrip {l : List Symbol} {s : Symbol} {i : Nat}
    (h : dictGet (withIds l 0) s = some i) :
    invGet (invVocab (withIds l 0)) i = some s := by
  have hmem : (s, i) ∈ withIds l 0 := mem_of_dictGet h
  have hids : ((withIds l 0).map Prod.snd).Nodup := withIds_snd_nodup l 0
  rw [invVocab_eq_map_swap _ hids]
  refine invGet_of_mem_nodup ?_ (List.mem_map.mpr ⟨(s, i), hmem, rfl⟩)
  have hkeys : (((withIds l 0).map (fun e => (e.2, e.1))).map Prod.fst) =
      (withIds l 0).map Prod.snd := by
    rw [List.map_map]
    rfl
  rw [hkeys]
  exact hids

theorem joinWords_head {w : List Char} (ws : List (List Char)) (hw : w ≠ []) :
    ∃ c t, joinWords (w :: ws) = c :: t ∧ c ∈ w := by
  cases ws with
  | nil =>
    cases w with
    | nil => exact absurd rfl hw
    | cons c t => exact ⟨c, t, rfl, List.mem_cons_self _ _⟩
  | cons w' rest =>
    cases w with
    | nil => exact absurd rfl hw
    | cons c t =>
      exact ⟨c, t ++ ' ' :: joinWords (w' :: rest), rfl, List.mem_cons_self _ _⟩

theorem joinWords_reverse_head :
    ∀ ws : List (List Char), ws ≠ [] → (∀ w ∈ ws, w ≠ []) →
      ∃ d r, (joinWords ws).reverse = d :: r ∧ ∃ w₀, w₀ ∈ ws ∧ d ∈ w₀
  | [], hne, _ => absurd rfl hne
  | [w], _, hws => by
    cases hrev : w.reverse with
    | nil => exact absurd (List.reverse_eq_nil_iff.mp hrev) (hws w (List.mem_cons_self _ _))
    | cons d r =>
      refine ⟨d, r, hrev, w, List.mem_cons_self _ _, ?_⟩
      rw [← List.mem_reverse, hrev]
      exact List.mem_cons_self _ _
  | w :: w' :: rest, _, hws => by
    obtain ⟨d, r, hrev, w₀, hw₀, hd⟩ :=
      joinWords_reverse_head (w' :: rest) (by simp)
        (fun u hu => hws u (List.mem_cons_of_mem _ hu))
    refine ⟨d, r ++ [' '] ++ w.reverse, ?_, w₀, List.mem_cons_of_mem _ hw₀, hd⟩
    show (w ++ ' ' :: joinWords (w' :: rest)).reverse = _
    rw [List.reverse_append, show (' ' :: joinWords (w' :: rest)) = [' '] ++
      joinWords (w' :: rest) from rfl, List.reverse_append, hrev]
    simp

theorem spaced_flatten :
    ∀ ws : List (List Char), ws ≠ [] →
      ((ws.map (fun w => ' ' :: w)).flatten) = ' ' :: joinWords ws
  | [], hne => absurd rfl hne
  | [w], _ => by simp [joinWords]
  | w :: w' :: rest, _ => by
    have ih := spaced_flatten (w' :: rest) (by simp)
    simp only [List.map_cons, List.flatten_cons] at ih ⊢
    rw [ih]
    show (' ' :: w) ++ ' ' :: joinWords (w' :: rest) = ' ' :: joinWords (w :: w' :: rest)
    rw [joinWords]
    rfl

theorem stripChars_space_join (ws : List (List Char))
    (hws : ∀ w ∈ ws, w ≠ [] ∧ ∀ c ∈ w, isSpace c = false) :
    stripChars ((ws.map (fun w => ' ' :: w)).flatten) = joinWords ws := by
  cases ws with
  | nil => rfl
  | cons w rest =>
    rw [spaced_flatten _ (by simp)]
    obtain ⟨c, t, hJ, hcw⟩ := joinWords_head rest (hws w (List.mem_cons_self _ _)).1
    have hc : isSpace c = false := (hws w (List.mem_cons_self _ _)).2 c hcw
    obtain ⟨d, r, hrev, w₀, hw₀, hdw⟩ :=
      joinWords_reverse_head (w :: rest) (by simp) (fun u hu => (hws u hu).1)
    have hd : isSpace d = false := (hws w₀ hw₀).2 d hdw
    rw [stripChars, List.dropWhile_cons_of_pos (by decide), hJ,
      List.dropWhile_cons_of_neg (by simp [hc]), ← hJ, hrev,
      List.dropWhile_cons_of_neg (by simp [hd]), ← hrev, List.reverse_reverse]

theorem wordCleanSymbols_spec {tok' : BPETokenizer}
    (hm2 : ∀ p ∈ tok'.merges, p.2 ≠ endOfWord) {w : List Char}
    (hrep : representableWord tok' w) :
    (wordCleanSymbols tok'.merges w).flatten = wordStart :: w ∧
    ∀ s ∈ wordCleanSymbols tok'.merges w, dictGet tok'.vocab s ≠ none := by
  obtain ⟨body, hbody⟩ := applyMerges_tail tok'.merges hm2 w
  have hdrop : (applyMerges tok'.merges w).dropLast = body := by
    rw [hbody]
    exact List.dropLast_concat
  have hreps : ∀ s ∈ body,
      s ≠ endOfWord ∧ endOfWord.isSuffixOf s = false ∧ dictGet tok'.vocab s ≠ none := by
    intro s hs
    exact hrep s (by rw [hdrop]; exact hs)
  have hwc : wordCleanSymbols tok'.merges w = body := by
    rw [wordCleanSymbols, hbody, List.filter_append]
    have h1 : body.filter (fun s => s ≠ endOfWord) = body :=
      List.filter_eq_self.mpr (fun s hs => by simpa using (hreps s hs).1)
    have h2 : ([endOfWord] : List Symbol).filter (fun s => s ≠ endOfWord) = [] := by simp
    rw [h1, h2, List.append_nil]
    refine map_eq_self_of ?_
    intro s hs
    have hsf : endOfWord.isSuffixOf s = false := (hreps s hs).2.1
    rw [cleanSymbol, if_neg (by rw [hsf]; decide)]
  constructor
  · rw [hwc]
    have hfl := applyMerges_flatten tok'.merges w
    rw [hbody, List.flatten_append] at hfl
    simp only [List.flatten_cons, List.flatten_nil, List.append_nil] at hfl
    exact List.append_cancel_right hfl
  · intro s hs
    exact (hreps s (by rw [← hwc]; exact hs)).2.2

/-- C1 counterexample: the corpus line `"▁"` (a text containing the
word-start marker character itself) is drawn verbatim from training and
is fully representable by surviving symbols, yet
`decode(encode("▁")) = ""` while the whitespace-normalized text is
`"▁"`: `decode` rewrites every `▁` to a space and strips it, so the
round-trip fails on texts containing the marker character. -/
theorem claim_C1_counter :
    (train ({} : BPETokenizer) [['▁']] 2).2 = none ∧
    (∀ w ∈ splitWs ['▁'], representableWord (train ({} : BPETokenizer) [['▁']] 2).1 w) ∧
    encode (train ({} : BPETokenizer) [['▁']] 2).1 ['▁'] = .ok [1, 1] ∧
    decode (train ({} : BPETokenizer) [['▁']] 2).1 [1, 1] = .ok [] ∧
    normalizeText ['▁'] = ['▁'] ∧ ([] : List Char) ≠ ['▁'] :=
  ⟨rfl, by decide, rfl, rfl, rfl, by decide⟩

/-- C1 (amended): for every successfully trained tokenizer and every
text whose whitespace-separated words are fully representable by
surviving symbols and contain no occurrence of the word-start marker
character `▁`, `decode(encode(text))` equals `text` after whitespace
normalization.  The marker-freedom condition is forced by the
counterexample: `decode` rewrites every `▁` — including ones that were
part of the original words — to a space. -/
theorem claim_C1 (tok : BPETokenizer) (corpus : List (List Char)) (n : Nat)
    (tok' : BPETokenizer) (h : train tok corpus n = (tok', none)) (text : List Char)
    (hrep : ∀ w ∈ splitWs text, representableWord tok' w)
    (hnm : ∀ w ∈ splitWs text, wordStart ∉ w) :
    ∃ ids, encode tok' text = .ok ids ∧ decode tok' ids = .ok (normalizeText text) := by
  obtain ⟨-, -, hu, hmrg, hv⟩ := train_success_inv h
  have hvne : tok'.vocab ≠ [] := by
    rw [hv, trainedVocab]
    simp [withIds]
  have hunk : dictGet tok'.vocab tok'.unkToken = some 0 := by
    rw [hv, hu, trainedVocab]
    exact dictGet_withIds_head _ _ _
  have hm2 : ∀ p ∈ tok'.merges, p.2 ≠ endOfWord := by
    intro p hp
    rw [hmrg] at hp
    exact (trainLoop_merges_no_marker n _ _ (by intro q hq; cases hq) p hp).2
  refine ⟨(encodeCleanSymbols tok'.merges text).map (fun s => (dictGet tok'.vocab s).getD 0),
    ?_, ?_⟩
  · rw [encode, if_neg hvne, mapM_lookupId_total hunk]
  · have hdec : decode tok' ((encodeCleanSymbols tok'.merges text).map
        (fun s => (dictGet tok'.vocab s).getD 0)) =
      .ok (stripChars (((((encodeCleanSymbols tok'.merges text).map
        (fun s => (dictGet tok'.vocab s).getD 0)).map
          (fun i => (invGet (invVocab tok'.vocab) i).getD tok'.unkToken)).flatten).map
            replaceStart)) := by
      rw [decode, if_neg hvne]
    rw [hdec]
    refine congrArg Except.ok ?_
    have hwords : ∀ w ∈ splitWs text, w ≠ [] ∧ ∀ c ∈ w, isSpace c = false :=
      fun w hw => splitWs_tokens hw
    have hspec : ∀ w ∈ splitWs text,
        (wordCleanSymbols tok'.merges w).flatten = wordStart :: w ∧
        ∀ s ∈ wordCleanSymbols tok'.merges w, dictGet tok'.vocab s ≠ none :=
      fun w hw => wordCleanSymbols_spec hm2 (hrep w hw)
    have hecs : encodeCleanSymbols tok'.merges text =
        ((splitWs text).map (wordCleanSymbols tok'.merges)).flatten := by
      rw [encodeCleanSymbols, splitToWords_eq_splitWs]
    have hinvmap : ∀ w ∈ splitWs text,
        ((wordCleanSymbols tok'.merges w).map
          (fun s => (invGet (invVocab tok'.vocab) ((dictGet tok'.vocab s).getD 0)).getD
            tok'.unkToken)) = wordCleanSymbols tok'.merges w := by
      intro w hw
      refine map_eq_self_of ?_
      intro s hs
      obtain ⟨i, hi⟩ := Option.ne_none_iff_exists'.mp ((hspec w hw).2 s hs)
      have hinv : invGet (invVocab tok'.vocab) i = some s := by
        rw [hv, trainedVocab] at hi ⊢
        exact withIds_roundtrip hi
      rw [hi]
      simp [hinv]
    have hpieces : ((encodeCleanSymbols tok'.merges text).map
        (fun s => (dictGet tok'.vocab s).getD 0)).map
          (fun i => (invGet (invVocab tok'.vocab) i).getD tok'.unkToken) =
        ((splitWs text).map (wordCleanSymbols tok'.merges)).flatten := by
      rw [hecs, List.map_map, List.map_flatten, List.map_map]
      simp only [Function.comp_def]
      refine congrArg List.flatten (List.map_congr_left ?_)
      intro w hw
      exact hinvmap w hw
    have hflat : (((splitWs text).map (wordCleanSymbols tok'.merges)).flatten).flatten =
        ((splitWs text).map (fun w => wordStart :: w)).flatten := by
      rw [List.flatten_flatten, List.map_map]
      refine congrArg List.flatten (List.map_congr_left ?_)
      intro w hw
      exact (hspec w hw).1
    have hrepl : (((splitWs text).map (fun w => wordStart :: w)).flatten).map replaceStart =
        ((splitWs text).map (fun w => ' ' :: w)).flatten := by
      rw [List.map_flatten, List.map_map]
      refine congrArg List.flatten (List.map_congr_left ?_)
      intro w hw
      show (wordStart :: w).map replaceStart = ' ' :: w
      rw [List.map_cons, show replaceStart wordStart = ' ' from by rw [replaceStart, if_pos rfl]]
      refine congrArg (List.cons ' ') ?_
      refine map_eq_self_of ?_
      intro c hc
      rw [replaceStart, if_neg]
      intro he
      exact (hnm w hw) (he ▸ hc)
    rw [hpieces, hflat, hrepl, stripChars_space_join _ hwords]
    rfl

/-- C1 witness: a trained tokenizer round-trips the marker-free,
fully representable text `"ab"`. -/
theorem claim_C1_witness :
    ∃ ids, encode (train ({} : BPETokenizer) [['a', 'b']] 6).1 ['a', 'b'] = .ok ids ∧
      decode (train ({} : BPETokenizer) [['a', 'b']] 6).1 ids =
        .ok (normalizeText ['a', 'b']) :=
  claim_C1 {} [['a', 'b']] 6 (train ({} : BPETokenizer) [['a', 'b']] 6).1 rfl ['a', 'b']
    (by decide) (by decide)

end BPE
